import Mathlib

/-!
Shallow embedding of the `rlp` crate's decoder (`src/rlpin.rs`) and of the
primitive codec implementations (`src/impls.rs`), together with the stream
encoder's byte-level output (the stream encoder itself, `stream.rs`, and the
crate-level `DecoderError` declaration are not part of the sources; those
two pieces are modelled from the specification, as marked below).

Conventions of the embedding:
* a Rust byte (`u8`) is a `Nat`; well-formed buffers satisfy `ValidBytes`
  (every element `< 256`);
* `usize` values are `Nat`s; arithmetic that Rust performs with
  `checked_add` on a 64-bit target is modelled with the explicit bound
  `usizeMax = 2 ^ 64 - 1`;
* fallible Rust code returning `Result<T, DecoderError>` is modelled in the
  `DRes` monad, whose third constructor `panic` records that the Rust code
  panics (an out-of-bounds slice index); `Option` would lose the error and
  `Except` would lose the panic;
* the interior-mutable caches of `Rlp` (`Cell<Option<OffsetCache>>`,
  `Cell<Option<usize>>`) are modelled by explicit state passing: an
  operation that can touch a cache takes the view and returns the updated
  view next to its result.
-/

namespace RlpProof

/-- Size in bytes of `usize` on the 64-bit target (`mem::size_of::<usize>()`). -/
def usizeSize : Nat := 8

/-- Value of `usize::max_value()` on the 64-bit target. -/
def usizeMax : Nat := 2 ^ 64 - 1

/-- Rust's `usize::checked_add` on the 64-bit target. -/
def checkedAdd (a b : Nat) : Option Nat :=
  if a + b ≤ usizeMax then some (a + b) else none

/-- Modelled from the spec: the crate-level `DecoderError` enum is declared
outside the two source files (`src/rlpin.rs` constructs `RlpIsTooShort`,
`RlpInvalidLength` and `RlpInconsistentLengthAndData` with the fields shown
here; spec section 7 lists the same kinds). -/
inductive DecoderError where
  | RlpIsTooShort (expected got : Nat)
  | RlpIsTooBig
  | RlpInvalidIndirection
  | RlpDataLenWithZeroPrefix
  | RlpInvalidLength (expected got : Nat)
  | RlpInconsistentLengthAndData (max index : Nat)
  | RlpExpectedToBeList
  | RlpExpectedToBeData
  | RlpIncorrectListLen
  | RlpNullTerminatedString
  deriving Repr, DecidableEq

/-- Result of running a piece of the Rust decoder: a value, a returned
`DecoderError`, or a panic (an out-of-bounds index). -/
inductive DRes (α : Type u) where
  | ok : α → DRes α
  | err : DecoderError → DRes α
  | panic : DRes α
  deriving Repr, DecidableEq

def DRes.bind {α β : Type u} : DRes α → (α → DRes β) → DRes β
  | .ok a, f => f a
  | .err e, _ => .err e
  | .panic, _ => .panic

instance : Monad DRes where
  pure := .ok
  bind := DRes.bind

/-- True exactly on `DRes.err`. -/
def DRes.isErr {α : Type u} : DRes α → Bool
  | .err _ => true
  | _ => false

/-- True exactly on `DRes.ok`. -/
def DRes.isOk {α : Type u} : DRes α → Bool
  | .ok _ => true
  | _ => false

/-- True exactly on an `RlpIsTooShort` error. -/
def DRes.isTooShortErr {α : Type u} : DRes α → Bool
  | .err (.RlpIsTooShort _ _) => true
  | _ => false

/-- True exactly on an `RlpInvalidLength` error. -/
def DRes.isInvalidLengthErr {α : Type u} : DRes α → Bool
  | .err (.RlpInvalidLength _ _) => true
  | _ => false

/-- True exactly on an `RlpDataLenWithZeroPrefix` error. -/
def DRes.isZeroPrefixErr {α : Type u} : DRes α → Bool
  | .err .RlpDataLenWithZeroPrefix => true
  | _ => false

/-- True exactly on an `RlpInvalidIndirection` error. -/
def DRes.isInvalidIndirectionErr {α : Type u} : DRes α → Bool
  | .err .RlpInvalidIndirection => true
  | _ => false

/-- A buffer of genuine `u8` values. -/
def ValidBytes (bytes : List Nat) : Prop := ∀ b ∈ bytes, b < 256

/-- Big-endian value of a byte string: the Rust loops
`res = res + ((bytes[i] as _) << ((l - 1 - i) * 8))` accumulate exactly
this fold (their shifted additions never overflow the target type because
`l` is at most the target's byte width and each byte is `< 256`). -/
def beNat (bytes : List Nat) : Nat :=
  bytes.foldl (fun acc b => acc * 256 + b) 0

/-- `decode_usize` from `src/impls.rs`. `DRes.panic` records that
`bytes[0]` panics on an empty slice (the slice's length `0` passes the
`l <= mem::size_of::<usize>()` guard). -/
def decode_usize (bytes : List Nat) : DRes Nat :=
  if bytes.length ≤ usizeSize then
    match bytes with
    | [] => .panic
    | b0 :: _ => if b0 = 0 then .err .RlpInvalidIndirection else .ok (beNat bytes)
  else .err .RlpIsTooBig

/-- `PayloadInfo` from `src/rlpin.rs`. -/
structure PayloadInfo where
  header_len : Nat
  value_len : Nat
  deriving Repr, DecidableEq

/-- `PayloadInfo::total`. -/
def PayloadInfo.total (pi : PayloadInfo) : Nat := pi.header_len + pi.value_len

/-- `calculate_payload_info` from `src/rlpin.rs`. -/
def calculate_payload_info (header_bytes : List Nat) (len_of_len : Nat) :
    DRes PayloadInfo :=
  let header_len := 1 + len_of_len
  match header_bytes.get? 1 with
  | some 0 => .err .RlpDataLenWithZeroPrefix
  | none => .err (.RlpIsTooShort 1 0)
  | some _ =>
    if header_bytes.length < header_len then
      .err (.RlpIsTooShort header_len header_bytes.length)
    else
      (decode_usize ((header_bytes.drop 1).take len_of_len)).bind fun value_len =>
        if value_len ≤ 55 then .err .RlpInvalidIndirection
        else .ok ⟨header_len, value_len⟩

/-- `PayloadInfo::from` from `src/rlpin.rs` (named `fromBytes` because `from`
is a Lean keyword). The final branch is Rust's `0xf8..=0xff` arm; a first
byte is a `u8`, so no larger value reaches it on a `ValidBytes` buffer. -/
def PayloadInfo.fromBytes (header_bytes : List Nat) : DRes PayloadInfo :=
  match header_bytes with
  | [] => .err (.RlpIsTooShort 1 0)
  | l :: _ =>
    if l ≤ 0x7f then .ok ⟨0, 1⟩
    else if l ≤ 0xb7 then .ok ⟨1, l - 0x80⟩
    else if l ≤ 0xbf then calculate_payload_info header_bytes (l - 0xb7)
    else if l ≤ 0xf7 then .ok ⟨1, l - 0xc0⟩
    else calculate_payload_info header_bytes (l - 0xf7)

/-- `BasicDecoder::payload_info` from `src/rlpin.rs`: `PayloadInfo::from`
followed by the overflow-checked bound `header_len + value_len <= bytes.len()`. -/
def payload_info (bytes : List Nat) : DRes PayloadInfo :=
  (PayloadInfo.fromBytes bytes).bind fun item =>
    match checkedAdd item.header_len item.value_len with
    | some x => if x ≤ bytes.length then .ok item else .err (.RlpIsTooShort 1 0)
    | none => .err (.RlpIsTooShort 1 0)

/-- `OffsetCache` from `src/rlpin.rs`. -/
structure OffsetCache where
  index : Nat
  offset : Nat
  deriving Repr, DecidableEq

/-- The view `Rlp<'a>` from `src/rlpin.rs`: the raw slice plus the two
interior-mutability caches, made explicit state. -/
structure Rlp where
  bytes : List Nat
  offset_cache : Option OffsetCache
  count_cache : Option Nat
  deriving Repr, DecidableEq

/-- `Rlp::new`: wrap a slice with empty caches. -/
def Rlp.new (bytes : List Nat) : Rlp := ⟨bytes, none, none⟩

/-- `Rlp::is_null`. -/
def Rlp.is_null (self : Rlp) : Bool := self.bytes.isEmpty

/-- `Rlp::is_empty`. `headD` stands for `self.bytes[0]`, which the
short-circuit on `is_null` keeps in bounds. -/
def Rlp.is_empty (self : Rlp) : Bool :=
  !self.is_null && (self.bytes.headD 0 == 0xc0 || self.bytes.headD 0 == 0x80)

/-- `Rlp::is_list`. -/
def Rlp.is_list (self : Rlp) : Bool :=
  !self.is_null && decide (0xc0 ≤ self.bytes.headD 0)

/-- `Rlp::is_data`. -/
def Rlp.is_data (self : Rlp) : Bool :=
  !self.is_null && decide (self.bytes.headD 0 < 0xc0)

/-- `Rlp::is_int`. In the `0x81..=0xb7` arm Rust indexes `self.bytes[1]`
without a bounds check, so on a one-byte buffer that arm panics; the
`0xb8..=0xbf` arm does guard its index `payload_idx`. -/
def Rlp.is_int (self : Rlp) : DRes Bool :=
  if self.is_null then .ok false
  else
    let b := self.bytes.headD 0
    if b ≤ 0x80 then .ok true
    else if b ≤ 0xb7 then
      match self.bytes.get? 1 with
      | some b1 => .ok (b1 != 0)
      | none => .panic
    else if b ≤ 0xbf then
      let payload_idx := 1 + b - 0xb7
      .ok (decide (payload_idx < self.bytes.length) && (self.bytes.getD payload_idx 0 != 0))
    else .ok false

/-- `Rlp::consume`: drop a prefix of length `len`, or `RlpIsTooShort`. -/
def Rlp.consume (bytes : List Nat) (len : Nat) : DRes (List Nat) :=
  if len ≤ bytes.length then .ok (bytes.drop len)
  else .err (.RlpIsTooShort len bytes.length)

/-- `Rlp::consume_list_payload`: the declared payload region of a list item
together with the number of header bytes consumed. Note the returned slice
is truncated to the declared `value_len` even when the buffer is longer. -/
def Rlp.consume_list_payload (self : Rlp) : DRes (List Nat × Nat) :=
  (payload_info self.bytes).bind fun item =>
    if self.bytes.length < item.header_len + item.value_len then
      .err (.RlpIsTooShort (item.header_len + item.value_len) self.bytes.length)
    else .ok ((self.bytes.drop item.header_len).take item.value_len, item.header_len)

/-- `Rlp::consume_items`: skip `items` consecutive RLP items, returning the
remaining slice and the number of bytes consumed. -/
def Rlp.consume_items (bytes : List Nat) (items : Nat) : DRes (List Nat × Nat) :=
  match items with
  | 0 => .ok (bytes, 0)
  | n + 1 =>
    (payload_info bytes).bind fun i =>
      (Rlp.consume bytes (i.header_len + i.value_len)).bind fun rest =>
        (Rlp.consume_items rest n).bind fun r =>
          .ok (r.1, i.header_len + i.value_len + r.2)

/-- Body of `Rlp::at` from `src/rlpin.rs` after the `let (bytes,
indexes_to_skip, bytes_consumed) = match cache ...` binding, whose result
is passed here as `step` (split out as a named function so the two halves
can be reasoned about separately). The cache is written at the point the
Rust code calls `self.offset_cache.set`, which is after the `offset_max`
bound check but before the final `payload_info` of the child, so that
last error path still returns the updated view. -/
def Rlp.atStep (self : Rlp) (index : Nat) (step : DRes (List Nat × Nat × Nat)) :
    DRes Rlp × Rlp :=
  match step with
  | .err e => (.err e, self)
  | .panic => (.panic, self)
  | .ok (bytes, indexes_to_skip, bytes_consumed) =>
    match Rlp.consume_items bytes indexes_to_skip with
    | .err e => (.err e, self)
    | .panic => (.panic, self)
    | .ok (bytes2, consumed) =>
      match payload_info self.bytes with
      | .err e => (.err e, self)
      | .panic => (.panic, self)
      | .ok pinfo =>
        let offset_max := pinfo.header_len + pinfo.value_len - 1
        let new_offset := bytes_consumed + consumed
        if new_offset > offset_max then
          (.err (.RlpIsTooShort new_offset offset_max), self)
        else
          let self' : Rlp := { self with offset_cache := some ⟨index, new_offset⟩ }
          match payload_info bytes2 with
          | .err e => (.err e, self')
          | .panic => (.panic, self')
          | .ok found =>
            (.ok (Rlp.new (bytes2.take (found.header_len + found.value_len))), self')

/-- `Rlp::at` from `src/rlpin.rs`, with the `offset_cache` made explicit:
the returned pair is (result, the view with its possibly updated cache).
The cached position is resumed when its index does not exceed the
requested one; note the cached path reads `self.bytes[cache.offset..]`
from the whole buffer while the fresh path goes through
`consume_list_payload`, which truncates to the declared payload. -/
def Rlp.at (self : Rlp) (index : Nat) : DRes Rlp × Rlp :=
  if !self.is_list then (.err .RlpExpectedToBeList, self)
  else
    Rlp.atStep self index
      (match self.offset_cache with
      | some cache =>
        if cache.index ≤ index then
          (Rlp.consume self.bytes cache.offset).bind fun b =>
            .ok (b, index - cache.index, cache.offset)
        else
          self.consume_list_payload.bind fun bc => .ok (bc.1, index, bc.2)
      | none =>
        self.consume_list_payload.bind fun bc => .ok (bc.1, index, bc.2))

/-- One run of `RlpIterator`: keep calling `Rlp::at` with indices
`idx, idx + 1, ...` on the shared view (threading its cache) until the
first error, collecting the yielded sub-views. `fuel` only bounds the
recursion; `item_count` passes more fuel than any buffer can use. -/
def Rlp.iterList (self : Rlp) (idx fuel : Nat) : DRes (List Rlp × Rlp) :=
  match fuel with
  | 0 => .ok ([], self)
  | fuel + 1 =>
    match self.at idx with
    | (.ok sub, self') =>
      (Rlp.iterList self' (idx + 1) fuel).bind fun r => .ok (sub :: r.1, r.2)
    | (.err _, self') => .ok ([], self')
    | (.panic, _) => .panic

/-- `Rlp::item_count`: `self.iter().count()`, memoized in `count_cache`. -/
def Rlp.item_count (self : Rlp) : DRes Nat × Rlp :=
  if !self.is_list then (.err .RlpExpectedToBeList, self)
  else
    match self.count_cache with
    | some c => (.ok c, self)
    | none =>
      match self.iterList 0 (self.bytes.length + 2) with
      | .ok (items, self') =>
        (.ok items.length, { self' with count_cache := some items.length })
      | .err e => (.err e, self)
      | .panic => (.panic, self)

/-- `Rlp::data`: the raw payload slice of a data item. -/
def Rlp.data (self : Rlp) : DRes (List Nat) :=
  (payload_info self.bytes).bind fun pinfo =>
    .ok ((self.bytes.drop pinfo.header_len).take pinfo.value_len)

/-- A session of consecutive `at` calls on one view: perform
`at start, at (start + 1), ..., at (start + count - 1)`, threading the
view's cache, and collect each call's result. -/
def Rlp.atSeq (self : Rlp) (start count : Nat) : List (DRes Rlp) × Rlp :=
  match count with
  | 0 => ([], self)
  | n + 1 =>
    let (r, self') := self.at start
    let (rs, self'') := Rlp.atSeq self' (start + 1) n
    (r :: rs, self'')

/-- `BasicDecoder::decode_value` from `src/rlpin.rs`: dispatch on the first
byte, extract the data payload, and hand it to the caller's closure `f`.
The final `_` arm is Rust's list-prefix range `0xc0..=0xff`. -/
def decode_value {α : Type} (bytes : List Nat) (f : List Nat → DRes α) : DRes α :=
  match bytes with
  | [] => .err (.RlpIsTooShort 1 0)
  | l :: _ =>
    if l ≤ 0x7f then f [l]
    else if l ≤ 0xb7 then
      let last_index_of := 1 + l - 0x80
      if bytes.length < last_index_of then
        .err (.RlpInconsistentLengthAndData bytes.length last_index_of)
      else
        let d := (bytes.drop 1).take (last_index_of - 1)
        if l = 0x81 ∧ d.headD 0 < 0x80 then .err .RlpInvalidIndirection
        else f d
    else if l ≤ 0xbf then
      let len_of_len := l - 0xb7
      let begin_of_value := 1 + len_of_len
      if bytes.length < begin_of_value then
        .err (.RlpInconsistentLengthAndData bytes.length begin_of_value)
      else
        (decode_usize ((bytes.drop 1).take len_of_len)).bind fun len =>
          match checkedAdd begin_of_value len with
          | none => .err (.RlpInvalidLength usizeMax usizeMax)
          | some last_index_of_value =>
            if bytes.length < last_index_of_value then
              .err (.RlpInconsistentLengthAndData bytes.length last_index_of_value)
            else f ((bytes.drop begin_of_value).take len)
    else .err .RlpExpectedToBeData

/-- The closure of `impl Decodable for bool` in `src/impls.rs`. -/
def boolDecodeValue (d : List Nat) : DRes Bool :=
  match d with
  | [] => .ok false
  | [b] => .ok (b != 0)
  | _ => .err .RlpIsTooBig

/-- `bool::decode`. -/
def boolDecode (bytes : List Nat) : DRes Bool :=
  decode_value bytes boolDecodeValue

/-- The closure of `impl Decodable for u8` in `src/impls.rs`. -/
def u8DecodeValue (d : List Nat) : DRes Nat :=
  match d with
  | [] => .ok 0
  | [b] => if b ≠ 0 then .ok b else .err .RlpInvalidIndirection
  | _ => .err .RlpIsTooBig

/-- `u8::decode`. -/
def u8Decode (bytes : List Nat) : DRes Nat :=
  decode_value bytes u8DecodeValue

/-- The macro-generated `impl Decodable` body of `impl_decodable_for_u!`
(`u16`, `u32`, `u64`), parameterized by `mem::size_of::<$name>()`. Its
closure captures `rlp`: on a payload of zero or one bytes it re-runs
`u8::decode` on the same view. -/
def uintDecode (size : Nat) (bytes : List Nat) : DRes Nat :=
  decode_value bytes fun d =>
    match d with
    | [] => u8Decode bytes
    | [_] => u8Decode bytes
    | b0 :: _ =>
      if d.length ≤ size then
        if b0 = 0 then .err .RlpInvalidIndirection else .ok (beNat d)
      else .err .RlpIsTooBig

/-- `u16::decode`. -/
def u16Decode (bytes : List Nat) : DRes Nat := uintDecode 2 bytes

/-- `u32::decode`. -/
def u32Decode (bytes : List Nat) : DRes Nat := uintDecode 4 bytes

/-- `u64::decode`. -/
def u64Decode (bytes : List Nat) : DRes Nat := uintDecode 8 bytes

/-- `usize::decode`: `u64::decode` with an `as usize` cast (the identity on
the 64-bit target). -/
def usizeDecode (bytes : List Nat) : DRes Nat := u64Decode bytes

/-- The macro-generated closure of `impl_decodable_for_hash!` (`H128`,
`H160`, `H256`, `H512`, `H520`): the payload must have exactly `size`
bytes, which are copied out verbatim. `src/impls.rs` names the short-case
error `DecoderError::RlpIsTooShort` without fields; the enum it refers to
is declared outside the sources, so the fields are modelled as `0, 0`
(no claim depends on them). -/
def hashDecodeValue (size : Nat) (d : List Nat) : DRes (List Nat) :=
  if d.length < size then .err (.RlpIsTooShort 0 0)
  else if size < d.length then .err .RlpIsTooBig
  else .ok d

/-- `HN::decode` for the fixed-size hash of `size` bytes. -/
def hashDecode (size : Nat) (bytes : List Nat) : DRes (List Nat) :=
  decode_value bytes (hashDecodeValue size)

/-- The closure of the macro-generated `impl_decodable_for_uint!` body for
`U256` (`$size = 32`): reject a leading zero byte and payloads longer than
32 bytes, else read big-endian (`U256::from`). -/
def u256DecodeValue (d : List Nat) : DRes Nat :=
  if d ≠ [] ∧ d.headD 0 = 0 then .err .RlpInvalidIndirection
  else if d.length ≤ 32 then .ok (beNat d)
  else .err .RlpIsTooBig

/-- `U256::decode`. -/
def u256Decode (bytes : List Nat) : DRes Nat :=
  decode_value bytes u256DecodeValue

/-- `Vec<u8>::decode`: the payload verbatim. -/
def vecU8Decode (bytes : List Nat) : DRes (List Nat) :=
  decode_value bytes fun d => .ok d

/-- Validity of a byte string as UTF-8, as checked by Rust's
`str::from_utf8` (called by `impl Decodable for String`): ASCII bytes stand
alone; `0xc2..=0xdf` take one continuation byte; three-byte sequences
exclude overlong forms (`0xe0` needs `0xa0..=0xbf` first) and surrogates
(`0xed` needs `0x80..=0x9f` first); four-byte sequences exclude overlong
forms (`0xf0` needs `0x90..=0xbf`) and values above `U+10FFFF` (`0xf4`
needs `0x80..=0x8f`). -/
def validUtf8 : List Nat → Bool
  | [] => true
  | b :: rest =>
    if b ≤ 0x7f then validUtf8 rest
    else if b ≤ 0xc1 then false
    else if b ≤ 0xdf then
      match rest with
      | c1 :: rest' => 0x80 ≤ c1 && c1 ≤ 0xbf && validUtf8 rest'
      | [] => false
    else if b ≤ 0xef then
      match rest with
      | c1 :: c2 :: rest' =>
        (if b = 0xe0 then 0xa0 ≤ c1 && c1 ≤ 0xbf
         else if b = 0xed then 0x80 ≤ c1 && c1 ≤ 0x9f
         else 0x80 ≤ c1 && c1 ≤ 0xbf) &&
        (0x80 ≤ c2 && c2 ≤ 0xbf) && validUtf8 rest'
      | _ => false
    else if b ≤ 0xf4 then
      match rest with
      | c1 :: c2 :: c3 :: rest' =>
        (if b = 0xf0 then 0x90 ≤ c1 && c1 ≤ 0xbf
         else if b = 0xf4 then 0x80 ≤ c1 && c1 ≤ 0x8f
         else 0x80 ≤ c1 && c1 ≤ 0xbf) &&
        (0x80 ≤ c2 && c2 ≤ 0xbf) && (0x80 ≤ c3 && c3 ≤ 0xbf) && validUtf8 rest'
      | _ => false
    else false

/-- The closure of `impl Decodable for String` in `src/impls.rs`: reject a
payload holding a NUL byte first, then require valid UTF-8; the decoded
`String` owns exactly the payload bytes, which this model returns. -/
def stringDecodeValue (d : List Nat) : DRes (List Nat) :=
  if d.contains 0 then .err .RlpNullTerminatedString
  else if validUtf8 d then .ok d
  else .err .RlpExpectedToBeData

/-- `String::decode`. -/
def stringDecode (bytes : List Nat) : DRes (List Nat) :=
  decode_value bytes stringDecodeValue

/-- `Option<T>::decode` from `src/impls.rs`, generic over the element
decoder `dec` (standing for `T::decode` applied to a sub-view's bytes):
`item_count` on the view, then `val_at(0)` for a one-element list, `None`
for an empty one, `RlpIncorrectListLen` otherwise. The `item_count` call
and the `at(0)` inside `val_at` share the view's caches. -/
def optionDecode {α : Type} (dec : List Nat → DRes α) (bytes : List Nat) :
    DRes (Option α) :=
  match (Rlp.new bytes).item_count with
  | (.ok 1, self') =>
    match self'.at 0 with
    | (.ok sub, _) => (dec sub.bytes).bind fun v => .ok (some v)
    | (.err e, _) => .err e
    | (.panic, _) => .panic
  | (.ok 0, _) => .ok none
  | (.ok _, _) => .err .RlpIncorrectListLen
  | (.err e, _) => .err e
  | (.panic, _) => .panic

/-- `Rlp::as_list`, generic over the element decoder: iterate the view
(sharing its caches) and decode each yielded sub-view, stopping with the
first decode error; the iteration itself ends at the first `at` error. -/
def asListAux {α : Type} (dec : List Nat → DRes α) (self : Rlp) (idx fuel : Nat) :
    DRes (List α) × Rlp :=
  match fuel with
  | 0 => (.ok [], self)
  | fuel + 1 =>
    match self.at idx with
    | (.ok sub, self') =>
      match dec sub.bytes with
      | .ok v =>
        let r := asListAux dec self' (idx + 1) fuel
        (r.1.bind fun vs => .ok (v :: vs), r.2)
      | .err e => (.err e, self')
      | .panic => (.panic, self')
    | (.err _, self') => (.ok [], self')
    | (.panic, self') => (.panic, self')

/-- `Vec<Vec<u8>>::decode`: `rlp.as_list::<Vec<u8>>()`. -/
def vecVecU8Decode (bytes : List Nat) : DRes (List (List Nat)) :=
  (asListAux vecU8Decode (Rlp.new bytes) 0 (bytes.length + 2)).1

/-- Minimal (no leading zero byte) big-endian bytes of `v`, written with a
structural fuel argument so that it evaluates by kernel reduction; `minBe`
instantiates the fuel with `v` itself, which `minBeF_fuel` (below) proves
sufficient. -/
def minBeF : Nat → Nat → List Nat
  | _, 0 => []
  | 0, _ + 1 => []
  | f + 1, v + 1 => minBeF f ((v + 1) / 256) ++ [(v + 1) % 256]

/-- Minimal big-endian byte string of `v` (empty for `0`). -/
def minBe (v : Nat) : List Nat := minBeF v v

/-- Modelled from the spec: the stream encoder (`stream.rs` is not among
the sources) emits, for a data payload, a header per the grammar table of
spec section 3, obeying I1 (a single byte `< 0x80` is its own encoding)
and I3 (the long form only for payloads longer than 55 bytes), followed by
the payload itself. This is the net effect of
`s.encoder().encode_value(bytes)`. -/
def encode_value (bytes : List Nat) : List Nat :=
  if bytes.length = 1 ∧ bytes.headD 0 < 0x80 then bytes
  else if bytes.length ≤ 55 then (0x80 + bytes.length) :: bytes
  else (0xb7 + (minBe bytes.length).length) :: (minBe bytes.length ++ bytes)

/-- Modelled from the spec: the net bytes of `begin_list(n)`, the appended
children, and header back-patching at finalization (spec sections 4.2 and
8): header `0xc0 + L` for a payload of `L ≤ 55` bytes, else
`0xf7 + k` followed by the `k` minimal big-endian bytes of `L`. -/
def encodeListPayload (payload : List Nat) : List Nat :=
  if payload.length ≤ 55 then (0xc0 + payload.length) :: payload
  else (0xf7 + (minBe payload.length).length) :: (minBe payload.length ++ payload)

/-- `impl Encodable for bool`: a single payload byte `1` or `0`. -/
def boolEncode (b : Bool) : List Nat :=
  if b then encode_value [1] else encode_value [0]

/-- `impl Encodable for u8`: one payload byte, or an empty payload for `0`. -/
def u8Encode (v : Nat) : List Nat :=
  if v ≠ 0 then encode_value [v] else encode_value []

/-- Leading zero bytes of a buffer: `self.leading_zeros() as usize / 8`
counts exactly the whole zero bytes at the front of the value's fixed-width
big-endian buffer. -/
def leadingZeroBytes : List Nat → Nat
  | 0 :: rest => 1 + leadingZeroBytes rest
  | _ => 0

/-- Fixed-width (`w` bytes) big-endian buffer of `v`, as filled by
`BigEndian::write_uN` / `U256::to_big_endian`. -/
def beFixed : Nat → Nat → List Nat
  | 0, _ => []
  | w + 1, v => beFixed w (v / 256) ++ [v % 256]

/-- The macro-generated `impl Encodable` body of `impl_encodable_for_u!`
and `impl_encodable_for_uint!`: the value's `size`-byte big-endian buffer
with its leading zero bytes stripped, as a data payload. (For the unsigned
primitives the strip count is `leading_zeros() / 8`, for `U256` it is
`$size - (bits + 7) / 8`; both equal the buffer's leading zero byte
count.) -/
def uintEncode (size v : Nat) : List Nat :=
  let buffer := beFixed size v
  encode_value (buffer.drop (leadingZeroBytes buffer))

/-- `u16::rlp_append`'s bytes. -/
def u16Encode (v : Nat) : List Nat := uintEncode 2 v

/-- `u32::rlp_append`'s bytes. -/
def u32Encode (v : Nat) : List Nat := uintEncode 4 v

/-- `u64::rlp_append`'s bytes. -/
def u64Encode (v : Nat) : List Nat := uintEncode 8 v

/-- `usize::rlp_append`: encodes `*self as u64`. -/
def usizeEncode (v : Nat) : List Nat := u64Encode v

/-- `U256::rlp_append`'s bytes. -/
def u256Encode (v : Nat) : List Nat := uintEncode 32 v

/-- The macro-generated `impl_encodable_for_hash!` body: the hash's bytes
as a data payload. -/
def hashEncode (bytes : List Nat) : List Nat := encode_value bytes

/-- `Vec<u8>::rlp_append` (and `&[u8]::rlp_append`): the bytes verbatim as
a data payload. -/
def vecU8Encode (bytes : List Nat) : List Nat := encode_value bytes

/-- `String::rlp_append` (and `&str::rlp_append`): the text's UTF-8 bytes
as a data payload. -/
def stringEncode (bytes : List Nat) : List Nat := encode_value bytes

/-- `Option<T>::rlp_append`: an empty list for `None`, a one-element list
holding the value's encoding for `Some`. -/
def optionEncode {α : Type} (enc : α → List Nat) : Option α → List Nat
  | none => encodeListPayload []
  | some v => encodeListPayload (enc v)

/-- `Vec<Vec<u8>>::rlp_append`: a list whose payload is the concatenation
of the elements' `Vec<u8>` encodings. -/
def vecVecU8Encode (vss : List (List Nat)) : List Nat :=
  encodeListPayload (vss.map encode_value).flatten

/-- A self-delimiting RLP item: `payload_info` succeeds on `it` and the
declared total (header plus payload) is exactly the length of `it`. The
encoders below only ever emit such items. -/
def goodItem (it : List Nat) : Bool :=
  match payload_info it with
  | .ok pi => pi.total == it.length
  | _ => false

/-- Byte offset of the start of the `j`-th item inside the concatenation of
`items`. -/
def itemOff (items : List (List Nat)) (j : Nat) : Nat :=
  ((items.take j).flatten).length

/-- The offset-cache states reachable while navigating a well-formed list
whose payload is the concatenation of `items` behind a header of `hl`
bytes: either the cache is empty or it points at the start of an item. -/
def WfCache (items : List (List Nat)) (hl : Nat) (cache : Option OffsetCache) :
    Prop :=
  cache = none ∨
    ∃ j, j ≤ items.length ∧ cache = some ⟨j, hl + itemOff items j⟩

/-! Helper lemmas about big-endian byte strings. -/

theorem beNat_append (l1 l2 : List Nat) :
    beNat (l1 ++ l2) = beNat l1 * 256 ^ l2.length + beNat l2 := by
  induction l2 using List.reverseRecOn with
  | nil => simp [beNat]
  | append_singleton l2 b ih =>
    rw [← List.append_assoc]
    simp only [beNat, List.foldl_append, List.foldl_cons, List.foldl_nil] at ih ⊢
    rw [ih]
    simp only [List.length_append, List.length_cons, List.length_nil]
    ring

theorem beNat_singleton (b : Nat) : beNat [b] = b := by simp [beNat]

theorem beNat_nil : beNat [] = 0 := rfl

theorem minBeF_eq_of_le : ∀ v f1 f2, v ≤ f1 → v ≤ f2 → minBeF f1 v = minBeF f2 v := by
  intro v
  induction v using Nat.strong_induction_on with
  | _ v ih =>
    intro f1 f2 h1 h2
    match v, f1, f2 with
    | 0, f1, f2 => cases f1 <;> cases f2 <;> rfl
    | v + 1, 0, _ => exact absurd h1 (by omega)
    | v + 1, _ + 1, 0 => exact absurd h2 (by omega)
    | v + 1, g1 + 1, g2 + 1 =>
      show minBeF g1 ((v + 1) / 256) ++ _ = minBeF g2 ((v + 1) / 256) ++ _
      have hd : (v + 1) / 256 < v + 1 := Nat.div_lt_self (Nat.succ_pos v) (by norm_num)
      rw [ih _ hd g1 g2 (by omega) (by omega)]

theorem minBeF_fuel (f v : Nat) (h : v ≤ f) : minBeF f v = minBe v :=
  minBeF_eq_of_le v f v h le_rfl

theorem minBe_zero : minBe 0 = [] := rfl

theorem minBe_eq_of_ne_zero {v : Nat} (hv : v ≠ 0) :
    minBe v = minBe (v / 256) ++ [v % 256] := by
  match v with
  | v + 1 =>
    show minBeF (v + 1) (v + 1) = _
    have hdiv : (v + 1) / 256 ≤ v := by
      have h2 : (v + 1) / 256 < v + 1 := Nat.div_lt_self (Nat.succ_pos v) (by norm_num)
      omega
    show minBeF v ((v + 1) / 256) ++ [(v + 1) % 256] = _
    rw [minBeF_fuel _ _ hdiv]

theorem beNat_minBe (v : Nat) : beNat (minBe v) = v := by
  induction v using Nat.strong_induction_on with
  | _ v ih =>
    by_cases hv : v = 0
    · subst hv; rfl
    · rw [minBe_eq_of_ne_zero hv, beNat_append, beNat_singleton]
      have hdiv : v / 256 < v := Nat.div_lt_self (Nat.pos_of_ne_zero hv) (by norm_num)
      rw [ih _ hdiv]
      simp only [List.length_singleton, pow_one]
      omega

theorem minBe_ne_nil {v : Nat} (hv : v ≠ 0) : minBe v ≠ [] := by
  rw [minBe_eq_of_ne_zero hv]
  simp

theorem minBe_headD_ne_zero {v : Nat} (hv : v ≠ 0) : (minBe v).headD 0 ≠ 0 := by
  induction v using Nat.strong_induction_on with
  | _ v ih =>
    rw [minBe_eq_of_ne_zero hv]
    by_cases hq : v / 256 = 0
    · have hmod : v % 256 = v := by omega
      rw [hq, minBe_zero, List.nil_append, List.headD_cons, hmod]
      exact hv
    · have hdiv : v / 256 < v := Nat.div_lt_self (Nat.pos_of_ne_zero hv) (by norm_num)
      have h2 := ih _ hdiv hq
      cases hbe : minBe (v / 256) with
      | nil => exact absurd hbe (minBe_ne_nil hq)
      | cons a l =>
        rw [hbe] at h2
        simpa using h2

theorem minBe_valid (v : Nat) : ValidBytes (minBe v) := by
  induction v using Nat.strong_induction_on with
  | _ v ih =>
    by_cases hv : v = 0
    · subst hv; intro b hb; simp [minBe_zero] at hb
    · rw [minBe_eq_of_ne_zero hv]
      intro b hb
      rcases List.mem_append.mp hb with h | h
      · exact ih _ (Nat.div_lt_self (Nat.pos_of_ne_zero hv) (by norm_num)) b h
      · simp only [List.mem_singleton] at h
        subst h
        exact Nat.mod_lt _ (by norm_num)

theorem minBe_length_le {v k : Nat} (h : v < 256 ^ k) : (minBe v).length ≤ k := by
  induction k generalizing v with
  | zero =>
    simp only [pow_zero, Nat.lt_one_iff] at h
    subst h
    rw [minBe_zero]
    simp
  | succ k ih =>
    by_cases hv : v = 0
    · subst hv; simp [minBe_zero]
    · rw [minBe_eq_of_ne_zero hv]
      have hdiv : v / 256 < 256 ^ k := by
        rw [Nat.div_lt_iff_lt_mul (by norm_num)]
        calc v < 256 ^ (k + 1) := h
        _ = 256 ^ k * 256 := by ring
      simpa using ih hdiv

theorem minBe_length_pos {v : Nat} (hv : v ≠ 0) : 1 ≤ (minBe v).length := by
  cases hbe : minBe v with
  | nil => exact absurd hbe (minBe_ne_nil hv)
  | cons a l => simp

theorem decode_usize_minBe {v : Nat} (hv : v ≠ 0) (hlen : (minBe v).length ≤ usizeSize) :
    decode_usize (minBe v) = .ok v := by
  cases hbe : minBe v with
  | nil => exact absurd hbe (minBe_ne_nil hv)
  | cons b0 l =>
    have hhead : b0 ≠ 0 := by
      have := minBe_headD_ne_zero hv
      rw [hbe] at this
      simpa using this
    have hlen' : (b0 :: l).length ≤ usizeSize := by rw [← hbe]; exact hlen
    unfold decode_usize
    rw [if_pos hlen']
    show (if b0 = 0 then DRes.err DecoderError.RlpInvalidIndirection
      else DRes.ok (beNat (b0 :: l))) = DRes.ok v
    rw [if_neg hhead, ← hbe, beNat_minBe]

theorem beFixed_length (w v : Nat) : (beFixed w v).length = w := by
  induction w generalizing v with
  | zero => rfl
  | succ w ih => simp [beFixed, ih]

theorem beFixed_zero (w : Nat) : beFixed w 0 = List.replicate w 0 := by
  induction w with
  | zero => rfl
  | succ w ih =>
    show beFixed w 0 ++ [0] = _
    rw [ih, ← List.replicate_succ' w 0]

theorem beFixed_eq_replicate_append {w v : Nat} (h : v < 256 ^ w) :
    beFixed w v = List.replicate (w - (minBe v).length) 0 ++ minBe v := by
  induction w generalizing v with
  | zero =>
    simp only [pow_zero, Nat.lt_one_iff] at h
    subst h; rfl
  | succ w ih =>
    by_cases hv : v = 0
    · subst hv
      rw [beFixed_zero, minBe_zero]
      simp
    · show beFixed w (v / 256) ++ [v % 256] = _
      have hdiv : v / 256 < 256 ^ w := by
        rw [Nat.div_lt_iff_lt_mul (by norm_num)]
        calc v < 256 ^ (w + 1) := h
        _ = 256 ^ w * 256 := by ring
      rw [ih hdiv, minBe_eq_of_ne_zero hv, List.append_assoc]
      have hlen : (minBe (v / 256) ++ [v % 256]).length = (minBe (v / 256)).length + 1 := by
        simp
      rw [hlen]
      have heq : w - (minBe (v / 256)).length = w + 1 - ((minBe (v / 256)).length + 1) := by
        omega
      rw [heq]

theorem leadingZeroBytes_replicate_append {k : Nat} {l : List Nat}
    (h : l.headD 1 ≠ 0) : leadingZeroBytes (List.replicate k 0 ++ l) = k := by
  induction k with
  | zero =>
    simp only [List.replicate_zero, List.nil_append]
    cases l with
    | nil => rfl
    | cons a l' =>
      simp only [List.headD_cons] at h
      cases a with
      | zero => exact absurd rfl h
      | succ a => rfl
  | succ k ih =>
    rw [List.replicate_succ, List.cons_append]
    show 1 + leadingZeroBytes (List.replicate k 0 ++ l) = k + 1
    rw [ih]
    omega

theorem uintEncode_eq {size v : Nat} (h : v < 256 ^ size) :
    uintEncode size v = encode_value (minBe v) := by
  have hhead : (minBe v).headD 1 ≠ 0 := by
    by_cases hv : v = 0
    · subst hv; simp [minBe_zero]
    · cases hbe : minBe v with
      | nil => exact absurd hbe (minBe_ne_nil hv)
      | cons a l =>
        have := minBe_headD_ne_zero hv
        rw [hbe] at this; simpa using this
  show encode_value ((beFixed size v).drop (leadingZeroBytes (beFixed size v)))
    = encode_value (minBe v)
  rw [beFixed_eq_replicate_append h, leadingZeroBytes_replicate_append hhead]
  have hdrop : ∀ (n : Nat) (l : List Nat), (List.replicate n 0 ++ l).drop n = l := by
    intro n l
    simpa using List.drop_left (List.replicate n 0) l
  rw [hdrop]

/-! Reduction lemmas for the result monad. -/

theorem DRes.bind_ok {α β : Type} (a : α) (f : α → DRes β) :
    (DRes.ok a).bind f = f a := rfl

theorem DRes.bind_err {α β : Type} (e : DecoderError) (f : α → DRes β) :
    (DRes.err e).bind f = .err e := rfl

theorem DRes.bind_panic {α β : Type} (f : α → DRes β) :
    (DRes.panic).bind f = .panic := rfl

/-! Agreement of the spec-modelled encoder's headers with the decoder. -/

theorem decode_value_single {α : Type} (f : List Nat → DRes α) {b : Nat} (hb : b < 0x80) :
    decode_value [b] f = f [b] := by
  simp only [decode_value]
  rw [if_pos (by omega : b ≤ 0x7f)]

theorem decode_value_short {α : Type} (f : List Nat → DRes α) {p : List Nat}
    (h55 : p.length ≤ 55) (hns : ¬(p.length = 1 ∧ p.headD 0 < 0x80)) :
    decode_value ((0x80 + p.length) :: p) f = f p := by
  simp only [decode_value]
  rw [if_neg (by omega : ¬(0x80 + p.length ≤ 0x7f)),
    if_pos (by omega : 0x80 + p.length ≤ 0xb7)]
  have hlast : 1 + (0x80 + p.length) - 0x80 = 1 + p.length := by omega
  rw [hlast]
  have hc1 : ¬(((0x80 + p.length) :: p).length < 1 + p.length) := by
    simp only [List.length_cons]
    omega
  rw [if_neg hc1]
  have hd : List.take (1 + p.length - 1) (List.drop 1 ((0x80 + p.length) :: p)) = p := by
    simp
  rw [hd]
  rw [if_neg]
  intro hcon
  rcases hcon with ⟨he, hh⟩
  exact hns ⟨by omega, hh⟩

theorem take_minBe_append {L : Nat} (rest : List Nat) :
    List.take (minBe L).length (minBe L ++ rest) = minBe L :=
  List.take_left _ _

theorem drop_minBe_append {L : Nat} (rest : List Nat) :
    List.drop (minBe L).length (minBe L ++ rest) = rest :=
  List.drop_left _ _

theorem decode_value_long {α : Type} (f : List Nat → DRes α) {p : List Nat}
    (h56 : 56 ≤ p.length) (hlen : p.length + 9 ≤ usizeMax) :
    decode_value ((0xb7 + (minBe p.length).length) :: (minBe p.length ++ p)) f = f p := by
  set L := p.length with hL
  set k := (minBe L).length with hk
  have hLne : L ≠ 0 := by omega
  have hk1 : 1 ≤ k := minBe_length_pos hLne
  have hk8 : k ≤ 8 := minBe_length_le (by
    show L < 256 ^ 8
    have h28 : (256 : Nat) ^ 8 = 2 ^ 64 := by norm_num
    rw [h28]
    unfold usizeMax at hlen
    omega)
  simp only [decode_value]
  rw [if_neg (by omega : ¬(0xb7 + k ≤ 0x7f)),
    if_neg (by omega : ¬(0xb7 + k ≤ 0xb7)),
    if_pos (by omega : 0xb7 + k ≤ 0xbf)]
  have hlol : 0xb7 + k - 0xb7 = k := by omega
  rw [hlol]
  have hblen : ((0xb7 + k) :: (minBe L ++ p)).length = 1 + k + L := by
    simp only [List.length_cons, List.length_append, ← hk, ← hL]
    omega
  have hc1 : ¬(((0xb7 + k) :: (minBe L ++ p)).length < 1 + k) := by
    rw [hblen]; omega
  rw [if_neg hc1]
  have hslice : List.take k (List.drop 1 ((0xb7 + k) :: (minBe L ++ p))) = minBe L := by
    rw [List.drop_one, List.tail_cons, hk]
    exact take_minBe_append p
  rw [hslice, decode_usize_minBe hLne (by rw [← hk]; exact le_trans hk8 (by norm_num [usizeSize]))]
  rw [DRes.bind_ok]
  have hca : checkedAdd (1 + k) L = some (1 + k + L) := by
    unfold checkedAdd
    rw [if_pos (by omega : 1 + k + L ≤ usizeMax)]
  rw [hca]
  have hc2 : ¬(((0xb7 + k) :: (minBe L ++ p)).length < 1 + k + L) := by rw [hblen]; omega
  show (if ((0xb7 + k) :: (minBe L ++ p)).length < 1 + k + L then
      DRes.err (DecoderError.RlpInconsistentLengthAndData
        ((0xb7 + k) :: (minBe L ++ p)).length (1 + k + L))
    else f (List.take L (List.drop (1 + k) ((0xb7 + k) :: (minBe L ++ p))))) = f p
  rw [if_neg hc2]
  have hpay : List.take L (List.drop (1 + k) ((0xb7 + k) :: (minBe L ++ p))) = p := by
    have hstep : List.drop (1 + k) ((0xb7 + k) :: (minBe L ++ p))
        = List.drop k (minBe L ++ p) := by
      rw [Nat.add_comm 1 k]
      rfl
    rw [hstep, hk, drop_minBe_append, hL]
    simp
  rw [hpay]

theorem decode_value_encode_value {α : Type} (f : List Nat → DRes α) (p : List Nat)
    (hlen : p.length + 9 ≤ usizeMax) :
    decode_value (encode_value p) f = f p := by
  unfold encode_value
  by_cases hs : p.length = 1 ∧ p.headD 0 < 0x80
  · rw [if_pos hs]
    obtain ⟨b, rfl⟩ : ∃ b, p = [b] := by
      cases p with
      | nil => simp at hs
      | cons a t =>
        cases t with
        | nil => exact ⟨a, rfl⟩
        | cons c u => simp at hs
    exact decode_value_single f (by simpa using hs.2)
  · rw [if_neg hs]
    by_cases h55 : p.length ≤ 55
    · rw [if_pos h55]
      exact decode_value_short f h55 hs
    · rw [if_neg h55]
      exact decode_value_long f (by omega) hlen

theorem calculate_payload_info_append (hdr n : Nat) (l rest : List Nat)
    (hlen8 : ((n + 1) :: l).length ≤ usizeSize) (h55 : 55 < beNat ((n + 1) :: l)) :
    calculate_payload_info (hdr :: (((n + 1) :: l) ++ rest)) ((n + 1) :: l).length
      = .ok ⟨1 + ((n + 1) :: l).length, beNat ((n + 1) :: l)⟩ := by
  simp only [calculate_payload_info, List.cons_append, List.get?_cons_succ,
    List.get?_cons_zero]
  have hc1 : ¬((hdr :: (n + 1) :: (l ++ rest)).length < 1 + ((n + 1) :: l).length) := by
    simp only [List.length_cons, List.length_append]
    omega
  rw [if_neg hc1]
  have hslice : List.take ((n + 1) :: l).length (List.drop 1 (hdr :: (n + 1) :: (l ++ rest)))
      = (n + 1) :: l := by
    rw [List.drop_one, List.tail_cons, ← List.cons_append]
    exact List.take_left _ _
  rw [hslice]
  have hdu : decode_usize ((n + 1) :: l) = .ok (beNat ((n + 1) :: l)) := by
    unfold decode_usize
    rw [if_pos hlen8]
    show (if n + 1 = 0 then DRes.err DecoderError.RlpInvalidIndirection
      else DRes.ok (beNat ((n + 1) :: l))) = _
    rw [if_neg (Nat.succ_ne_zero n)]
  rw [hdu, DRes.bind_ok]
  rw [if_neg (by omega : ¬(beNat ((n + 1) :: l) ≤ 55))]

theorem DRes.bind_eq_ok {α β : Type} {x : DRes α} {f : α → DRes β} {b : β} :
    x.bind f = .ok b ↔ ∃ a, x = .ok a ∧ f a = .ok b := by
  cases x <;> simp [DRes.bind]

theorem decode_usize_ok_ne_nil {bytes : List Nat} {v : Nat}
    (h : decode_usize bytes = .ok v) : bytes ≠ [] := by
  intro hnil
  subst hnil
  simp [decode_usize, usizeSize] at h

theorem calculate_ok_elim {hb : List Nat} {k : Nat} {p : PayloadInfo}
    (h : calculate_payload_info hb k = .ok p) :
    p.header_len = 1 + k ∧ 1 + k ≤ hb.length ∧ 55 < p.value_len ∧
      decode_usize ((hb.drop 1).take k) = .ok p.value_len ∧
      (∃ m, hb.get? 1 = some (m + 1)) := by
  unfold calculate_payload_info at h
  cases hget : hb.get? 1 with
  | none => rw [hget] at h; cases h
  | some b1 =>
    rw [hget] at h
    cases b1 with
    | zero => cases h
    | succ m =>
      replace h : (if hb.length < 1 + k then
          DRes.err (DecoderError.RlpIsTooShort (1 + k) hb.length)
        else (decode_usize (List.take k (List.drop 1 hb))).bind fun value_len =>
          if value_len ≤ 55 then DRes.err DecoderError.RlpInvalidIndirection
          else DRes.ok ⟨1 + k, value_len⟩) = DRes.ok p := h
      by_cases hl : hb.length < 1 + k
      · rw [if_pos hl] at h; cases h
      · rw [if_neg hl] at h
        rw [DRes.bind_eq_ok] at h
        obtain ⟨v, hdu, hv⟩ := h
        by_cases h55 : v ≤ 55
        · rw [if_pos h55] at hv; cases hv
        · rw [if_neg h55] at hv
          cases hv
          refine ⟨rfl, by omega, ?_, ?_, ⟨m, rfl⟩⟩
          · show 55 < v
            omega
          · show decode_usize (List.take k (List.drop 1 hb)) = DRes.ok v
            exact hdu

theorem calculate_ok_intro {hb : List Nat} {k v m : Nat}
    (hget : hb.get? 1 = some (m + 1)) (hk : 1 + k ≤ hb.length)
    (hdu : decode_usize ((hb.drop 1).take k) = .ok v) (h55 : 55 < v) :
    calculate_payload_info hb k = .ok ⟨1 + k, v⟩ := by
  unfold calculate_payload_info
  rw [hget]
  show (if hb.length < 1 + k then
      DRes.err (DecoderError.RlpIsTooShort (1 + k) hb.length)
    else (decode_usize (List.take k (List.drop 1 hb))).bind fun value_len =>
      if value_len ≤ 55 then DRes.err DecoderError.RlpInvalidIndirection
      else DRes.ok (PayloadInfo.mk (1 + k) value_len)) = DRes.ok (PayloadInfo.mk (1 + k) v)
  rw [if_neg (by omega), hdu, DRes.bind_ok, if_neg (by omega)]

theorem fromBytes_cons (l : Nat) (rest : List Nat) :
    PayloadInfo.fromBytes (l :: rest) =
      (if l ≤ 0x7f then DRes.ok (PayloadInfo.mk 0 1)
      else if l ≤ 0xb7 then DRes.ok (PayloadInfo.mk 1 (l - 0x80))
      else if l ≤ 0xbf then calculate_payload_info (l :: rest) (l - 0xb7)
      else if l ≤ 0xf7 then DRes.ok (PayloadInfo.mk 1 (l - 0xc0))
      else calculate_payload_info (l :: rest) (l - 0xf7)) := rfl

theorem payload_info_eq (bytes : List Nat) :
    payload_info bytes = (PayloadInfo.fromBytes bytes).bind fun item =>
      if item.header_len + item.value_len ≤ usizeMax then
        (if item.header_len + item.value_len ≤ bytes.length then DRes.ok item
        else DRes.err (DecoderError.RlpIsTooShort 1 0))
      else DRes.err (DecoderError.RlpIsTooShort 1 0) := by
  unfold payload_info checkedAdd
  congr 1
  funext item
  by_cases hov : item.header_len + item.value_len ≤ usizeMax
  · simp only [if_pos hov]
  · simp only [if_neg hov]

theorem payload_info_ok_elim {bytes : List Nat} {p : PayloadInfo}
    (h : payload_info bytes = .ok p) :
    PayloadInfo.fromBytes bytes = .ok p ∧ p.total ≤ bytes.length ∧ p.total ≤ usizeMax := by
  rw [payload_info_eq, DRes.bind_eq_ok] at h
  obtain ⟨q, hq, hcheck⟩ := h
  by_cases hov : q.header_len + q.value_len ≤ usizeMax
  · rw [if_pos hov] at hcheck
    by_cases hle : q.header_len + q.value_len ≤ bytes.length
    · rw [if_pos hle] at hcheck
      cases hcheck
      exact ⟨hq, hle, hov⟩
    · rw [if_neg hle] at hcheck
      cases hcheck
  · rw [if_neg hov] at hcheck
    cases hcheck

theorem payload_info_ok_intro {bytes : List Nat} {p : PayloadInfo}
    (h : PayloadInfo.fromBytes bytes = .ok p) (hle : p.total ≤ bytes.length)
    (hov : p.total ≤ usizeMax) : payload_info bytes = .ok p := by
  have hle' : p.header_len + p.value_len ≤ bytes.length := hle
  have hov' : p.header_len + p.value_len ≤ usizeMax := hov
  rw [payload_info_eq, h, DRes.bind_ok, if_pos hov', if_pos hle']

theorem fromBytes_total_pos {bytes : List Nat} {p : PayloadInfo}
    (h : PayloadInfo.fromBytes bytes = .ok p) : 1 ≤ p.total := by
  cases bytes with
  | nil => cases h
  | cons l rest =>
    rw [fromBytes_cons] at h
    by_cases h1 : l ≤ 0x7f
    · rw [if_pos h1] at h; cases h; simp [PayloadInfo.total]
    · rw [if_neg h1] at h
      by_cases h2 : l ≤ 0xb7
      · rw [if_pos h2] at h; cases h; simp [PayloadInfo.total]
      · rw [if_neg h2] at h
        by_cases h3 : l ≤ 0xbf
        · rw [if_pos h3] at h
          obtain ⟨hh, -⟩ := calculate_ok_elim h
          simp only [PayloadInfo.total]
          omega
        · rw [if_neg h3] at h
          by_cases h4 : l ≤ 0xf7
          · rw [if_pos h4] at h; cases h; simp [PayloadInfo.total]
          · rw [if_neg h4] at h
            obtain ⟨hh, -⟩ := calculate_ok_elim h
            simp only [PayloadInfo.total]
            omega

theorem fromBytes_header_le {bytes : List Nat} {p : PayloadInfo}
    (h : PayloadInfo.fromBytes bytes = .ok p) : p.header_len ≤ bytes.length := by
  cases bytes with
  | nil => cases h
  | cons l rest =>
    rw [fromBytes_cons] at h
    by_cases h1 : l ≤ 0x7f
    · rw [if_pos h1] at h; cases h; simp
    · rw [if_neg h1] at h
      by_cases h2 : l ≤ 0xb7
      · rw [if_pos h2] at h; cases h; simp
      · rw [if_neg h2] at h
        by_cases h3 : l ≤ 0xbf
        · rw [if_pos h3] at h
          obtain ⟨hh, hlen, -⟩ := calculate_ok_elim h
          rw [hh]; exact hlen
        · rw [if_neg h3] at h
          by_cases h4 : l ≤ 0xf7
          · rw [if_pos h4] at h; cases h; simp
          · rw [if_neg h4] at h
            obtain ⟨hh, hlen, -⟩ := calculate_ok_elim h
            rw [hh]; exact hlen

theorem calculate_prefix_stable {it rest : List Nat} {k : Nat} {p : PayloadInfo}
    (h : calculate_payload_info it k = .ok p) :
    calculate_payload_info (it ++ rest) k = .ok p := by
  obtain ⟨hh, hlen, h55, hdu, m, hget⟩ := calculate_ok_elim h
  have hk1 : 1 ≤ k := by
    by_contra hk0
    have hk0' : k = 0 := by omega
    subst hk0'
    have := decode_usize_ok_ne_nil hdu
    simp at this
  have hit2 : 2 ≤ it.length := by omega
  have hget' : (it ++ rest).get? 1 = some (m + 1) := by
    rw [List.get?_append (by omega)]
    exact hget
  have hlen' : 1 + k ≤ (it ++ rest).length := by
    rw [List.length_append]
    omega
  have hslice : ((it ++ rest).drop 1).take k = (it.drop 1).take k := by
    rw [List.drop_append_of_le_length (by omega)]
    rw [List.take_append_of_le_length (by simp; omega)]
  have hres := calculate_ok_intro hget' hlen' (by rw [hslice]; exact hdu) h55
  rw [hres]
  have hp : p = ⟨1 + k, p.value_len⟩ := by
    cases p with
    | mk a b =>
      simp only at hh
      rw [hh]
  rw [hp]

theorem fromBytes_prefix_stable {it rest : List Nat} {p : PayloadInfo}
    (h : PayloadInfo.fromBytes it = .ok p) :
    PayloadInfo.fromBytes (it ++ rest) = .ok p := by
  cases it with
  | nil => cases h
  | cons l t =>
    rw [fromBytes_cons] at h
    rw [List.cons_append, fromBytes_cons]
    by_cases h1 : l ≤ 0x7f
    · rw [if_pos h1] at h ⊢; exact h
    · rw [if_neg h1] at h ⊢
      by_cases h2 : l ≤ 0xb7
      · rw [if_pos h2] at h ⊢; exact h
      · rw [if_neg h2] at h ⊢
        by_cases h3 : l ≤ 0xbf
        · rw [if_pos h3] at h ⊢
          rw [← List.cons_append]
          exact calculate_prefix_stable h
        · rw [if_neg h3] at h ⊢
          by_cases h4 : l ≤ 0xf7
          · rw [if_pos h4] at h ⊢; exact h
          · rw [if_neg h4] at h ⊢
            rw [← List.cons_append]
            exact calculate_prefix_stable h

theorem payload_info_prefix_stable {it rest : List Nat} {p : PayloadInfo}
    (h : payload_info it = .ok p) (ht : p.total = it.length) :
    payload_info (it ++ rest) = .ok p := by
  obtain ⟨hfrom, hle, hov⟩ := payload_info_ok_elim h
  exact payload_info_ok_intro (fromBytes_prefix_stable hfrom)
    (by rw [List.length_append]; omega) hov

theorem minBe_cons_of_ne_zero {L : Nat} (hL : L ≠ 0) :
    ∃ n t, minBe L = (n + 1) :: t := by
  cases hbe : minBe L with
  | nil => exact absurd hbe (minBe_ne_nil hL)
  | cons b0 t =>
    have hb0 : b0 ≠ 0 := by
      have := minBe_headD_ne_zero hL
      rw [hbe] at this
      simpa using this
    cases b0 with
    | zero => exact absurd rfl hb0
    | succ n => exact ⟨n, t, rfl⟩

theorem usizeMax_big : 56 ≤ usizeMax := by norm_num [usizeMax]

theorem minBe_le_eight {L : Nat} (h : L + 9 ≤ usizeMax) : (minBe L).length ≤ 8 :=
  minBe_length_le (by
    have h28 : (256 : Nat) ^ 8 = 2 ^ 64 := by norm_num
    rw [h28]
    unfold usizeMax at h
    omega)

theorem payload_info_encode_value (p : List Nat) (hlen : p.length + 9 ≤ usizeMax) :
    ∃ hl, payload_info (encode_value p) = .ok ⟨hl, p.length⟩ ∧
      (encode_value p).length = hl + p.length := by
  unfold encode_value
  by_cases hs : p.length = 1 ∧ p.headD 0 < 0x80
  · rw [if_pos hs]
    obtain ⟨b, rfl⟩ : ∃ b, p = [b] := by
      cases p with
      | nil => simp at hs
      | cons a t =>
        cases t with
        | nil => exact ⟨a, rfl⟩
        | cons c u => simp at hs
    refine ⟨0, ?_, by simp⟩
    have hb : b ≤ 0x7f := by
      have := hs.2
      simp only [List.headD_cons] at this
      omega
    apply payload_info_ok_intro
    · rw [fromBytes_cons, if_pos hb]
      simp
    · simp [PayloadInfo.total]
    · simp only [PayloadInfo.total]
      norm_num [usizeMax]
  · rw [if_neg hs]
    by_cases h55 : p.length ≤ 55
    · rw [if_pos h55]
      refine ⟨1, ?_, by simp; omega⟩
      apply payload_info_ok_intro
      · rw [fromBytes_cons, if_neg (by omega), if_pos (by omega)]
        have harith : 0x80 + p.length - 0x80 = p.length := by omega
        rw [harith]
      · simp [PayloadInfo.total]
        omega
      · simp only [PayloadInfo.total]
        unfold usizeMax at hlen ⊢
        omega
    · rw [if_neg h55]
      set L := p.length with hL
      set k := (minBe L).length with hk
      have hLne : L ≠ 0 := by omega
      have hk1 : 1 ≤ k := minBe_length_pos hLne
      have hk8 : k ≤ 8 := minBe_le_eight hlen
      refine ⟨1 + k, ?_, by simp only [List.length_cons, List.length_append, ← hk, ← hL]; omega⟩
      apply payload_info_ok_intro
      · rw [fromBytes_cons, if_neg (by omega), if_neg (by omega), if_pos (by omega)]
        have hlol : 0xb7 + k - 0xb7 = k := by omega
        rw [hlol]
        obtain ⟨n, t, hbe⟩ := minBe_cons_of_ne_zero hLne
        have hkk : k = ((n + 1) :: t).length := by rw [hk, hbe]
        have hbeval : beNat ((n + 1) :: t) = L := by rw [← hbe, beNat_minBe]
        rw [hbe, hkk]
        rw [calculate_payload_info_append (0xb7 + ((n + 1) :: t).length) n t p
          (by rw [← hkk]; exact le_trans hk8 (by norm_num [usizeSize])) (by rw [hbeval]; omega)]
        rw [hbeval]
      · simp only [PayloadInfo.total, List.length_cons, List.length_append, ← hk, ← hL]
        omega
      · simp only [PayloadInfo.total]
        unfold usizeMax at hlen ⊢
        omega

theorem payload_info_encodeListPayload (p : List Nat) (hlen : p.length + 9 ≤ usizeMax) :
    ∃ hl, payload_info (encodeListPayload p) = .ok ⟨hl, p.length⟩ ∧
      (encodeListPayload p).length = hl + p.length ∧ 1 ≤ hl ∧
      (encodeListPayload p).drop hl = p ∧
      0xc0 ≤ (encodeListPayload p).headD 0 := by
  unfold encodeListPayload
  by_cases h55 : p.length ≤ 55
  · rw [if_pos h55]
    refine ⟨1, ?_, by simp; omega, le_refl 1, by simp, by simp⟩
    apply payload_info_ok_intro
    · rw [fromBytes_cons, if_neg (by omega), if_neg (by omega), if_neg (by omega),
        if_pos (by omega)]
      have harith : 0xc0 + p.length - 0xc0 = p.length := by omega
      rw [harith]
    · simp [PayloadInfo.total]
      omega
    · simp only [PayloadInfo.total]
      unfold usizeMax at hlen ⊢
      omega
  · rw [if_neg h55]
    set L := p.length with hL
    set k := (minBe L).length with hk
    have hLne : L ≠ 0 := by omega
    have hk1 : 1 ≤ k := minBe_length_pos hLne
    have hk8 : k ≤ 8 := minBe_le_eight hlen
    have hdropk : List.drop (1 + k) ((0xf7 + k) :: (minBe L ++ p)) = p := by
      have hstep : List.drop (1 + k) ((0xf7 + k) :: (minBe L ++ p))
          = List.drop k (minBe L ++ p) := by
        rw [Nat.add_comm 1 k]
        rfl
      rw [hstep, hk, drop_minBe_append]
    refine ⟨1 + k, ?_,
      by simp only [List.length_cons, List.length_append, ← hk, ← hL]; omega,
      by omega, hdropk, by simp; omega⟩
    apply payload_info_ok_intro
    · rw [fromBytes_cons, if_neg (by omega), if_neg (by omega), if_neg (by omega),
        if_neg (by omega)]
      have hlol : 0xf7 + k - 0xf7 = k := by omega
      rw [hlol]
      obtain ⟨n, t, hbe⟩ := minBe_cons_of_ne_zero hLne
      have hkk : k = ((n + 1) :: t).length := by rw [hk, hbe]
      have hbeval : beNat ((n + 1) :: t) = L := by rw [← hbe, beNat_minBe]
      rw [hbe, hkk]
      rw [calculate_payload_info_append (0xf7 + ((n + 1) :: t).length) n t p
        (by rw [← hkk]; exact le_trans hk8 (by norm_num [usizeSize])) (by rw [hbeval]; omega)]
      rw [hbeval]
    · simp only [PayloadInfo.total, List.length_cons, List.length_append, ← hk, ← hL]
      omega
    · simp only [PayloadInfo.total]
      unfold usizeMax at hlen ⊢
      omega

set_option maxRecDepth 10000 in
theorem boolRoundTrip (b : Bool) : boolDecode (boolEncode b) = .ok b := by
  cases b <;> decide

set_option maxRecDepth 10000 in
theorem u8RoundTrip : ∀ v, v < 256 → u8Decode (u8Encode v) = .ok v := by decide

theorem minBe_small {v : Nat} (h0 : v ≠ 0) (h : v < 256) : minBe v = [v] := by
  rw [minBe_eq_of_ne_zero h0]
  have h1 : v / 256 = 0 := by omega
  have h2 : v % 256 = v := by omega
  rw [h1, h2, minBe_zero, List.nil_append]

theorem minBe_len_hlen {v : Nat} (h : (minBe v).length ≤ 8) :
    (minBe v).length + 9 ≤ usizeMax := by
  unfold usizeMax
  omega

theorem u8Encode_eq {v : Nat} (hv : v < 256) : u8Encode v = encode_value (minBe v) := by
  unfold u8Encode
  by_cases h0 : v = 0
  · subst h0
    rw [if_neg (by omega), minBe_zero]
  · rw [if_pos h0, minBe_small h0 hv]

theorem uintRoundTrip {size : Nat} (hsize : size ≤ 8) :
    ∀ v, v < 256 ^ size → uintDecode size (uintEncode size v) = .ok v := by
  intro v hv
  have hk : (minBe v).length ≤ size := minBe_length_le hv
  have hk8 : (minBe v).length ≤ 8 := le_trans hk hsize
  unfold uintDecode
  rw [uintEncode_eq hv, decode_value_encode_value _ _ (minBe_len_hlen hk8)]
  show (match minBe v with
    | [] => u8Decode (encode_value (minBe v))
    | [_] => u8Decode (encode_value (minBe v))
    | b0 :: _ =>
      if (minBe v).length ≤ size then
        if b0 = 0 then DRes.err DecoderError.RlpInvalidIndirection
        else DRes.ok (beNat (minBe v))
      else DRes.err DecoderError.RlpIsTooBig) = DRes.ok v
  cases hbe : minBe v with
  | nil =>
    have hv0 : v = 0 := by
      by_contra h0
      exact minBe_ne_nil h0 hbe
    subst hv0
    show u8Decode (encode_value (minBe 0)) = DRes.ok 0
    rw [← u8Encode_eq (by omega)]
    exact u8RoundTrip 0 (by omega)
  | cons b t =>
    have hvne : v ≠ 0 := by
      intro h0
      subst h0
      rw [minBe_zero] at hbe
      cases hbe
    have hb : b ≠ 0 := by
      have := minBe_headD_ne_zero hvne
      rw [hbe] at this
      simpa using this
    cases t with
    | nil =>
      have hvb : b = v := by
        have hbn := beNat_minBe v
        rw [hbe, beNat_singleton] at hbn
        exact hbn
      have hblt : b < 256 := minBe_valid v b (by rw [hbe]; simp)
      subst hvb
      show u8Decode (encode_value [b]) = DRes.ok b
      rw [← minBe_small hvne hblt, ← u8Encode_eq hblt]
      exact u8RoundTrip b hblt
    | cons c u =>
      show (if (b :: c :: u).length ≤ size then
          if b = 0 then DRes.err DecoderError.RlpInvalidIndirection
          else DRes.ok (beNat (b :: c :: u))
        else DRes.err DecoderError.RlpIsTooBig) = DRes.ok v
      rw [← hbe, if_pos hk, if_neg hb, beNat_minBe]

theorem u16RoundTrip : ∀ v, v < 2 ^ 16 → u16Decode (u16Encode v) = .ok v := by
  intro v hv
  exact uintRoundTrip (by norm_num) v (by norm_num at hv ⊢; omega)

theorem u32RoundTrip : ∀ v, v < 2 ^ 32 → u32Decode (u32Encode v) = .ok v := by
  intro v hv
  exact uintRoundTrip (by norm_num) v (by norm_num at hv ⊢; omega)

theorem u64RoundTrip : ∀ v, v < 2 ^ 64 → u64Decode (u64Encode v) = .ok v := by
  intro v hv
  exact uintRoundTrip (by norm_num) v (by norm_num at hv ⊢; omega)

theorem usizeRoundTrip : ∀ v, v < 2 ^ 64 → usizeDecode (usizeEncode v) = .ok v :=
  u64RoundTrip

theorem u256RoundTrip : ∀ v, v < 2 ^ 256 → u256Decode (u256Encode v) = .ok v := by
  intro v hv
  have hv' : v < 256 ^ 32 := by norm_num at hv ⊢; omega
  have hk : (minBe v).length ≤ 32 := minBe_length_le hv'
  have hlen : (minBe v).length + 9 ≤ usizeMax := by unfold usizeMax; omega
  unfold u256Decode u256Encode
  rw [uintEncode_eq hv', decode_value_encode_value _ _ hlen]
  unfold u256DecodeValue
  by_cases h0 : v = 0
  · subst h0
    rw [minBe_zero]
    rw [if_neg (by simp)]
    rw [if_pos (by simp)]
    rfl
  · rw [if_neg (by
      intro hcon
      have := minBe_headD_ne_zero h0
      rcases hcon with ⟨hne, hh⟩
      cases hbe : minBe v with
      | nil => exact minBe_ne_nil h0 hbe
      | cons a l =>
        rw [hbe] at this hh
        simp at this hh
        exact this hh)]
    rw [if_pos hk, beNat_minBe]

theorem hashRoundTrip (size : Nat) (hsize : size ≤ 100) (bs : List Nat)
    (hlen : bs.length = size) : hashDecode size (hashEncode bs) = .ok bs := by
  unfold hashDecode hashEncode
  rw [decode_value_encode_value _ _ (by unfold usizeMax; omega)]
  unfold hashDecodeValue
  rw [if_neg (by omega), if_neg (by omega)]

theorem vecU8RoundTrip (bs : List Nat) (hlen : bs.length + 9 ≤ usizeMax) :
    vecU8Decode (vecU8Encode bs) = .ok bs := by
  unfold vecU8Decode vecU8Encode
  rw [decode_value_encode_value _ _ hlen]

theorem stringRoundTrip (bs : List Nat) (hlen : bs.length + 9 ≤ usizeMax)
    (hutf : validUtf8 bs = true) (hnul : bs.contains 0 = false) :
    stringDecode (stringEncode bs) = .ok bs := by
  unfold stringDecode stringEncode
  rw [decode_value_encode_value _ _ hlen]
  unfold stringDecodeValue
  rw [hnul]
  show (if false = true then DRes.err DecoderError.RlpNullTerminatedString
    else if validUtf8 bs then DRes.ok bs else DRes.err DecoderError.RlpExpectedToBeData) = _
  rw [if_neg (by simp), if_pos hutf]

/-! Claim theorems on concrete inputs. -/

/-- C2: the claim says no decoder operation panics on any input and every
failure is a returned `DecoderError`. The code violates it: `is_int` on the
one-byte buffer `[0x81]` reaches the `0x81..=0xb7` arm and indexes
`self.bytes[1]` out of bounds (the neighbouring `0xb8..=0xbf` arm does
bounds-check, and the struct's own doc says it is for error handling on
input, so the missing check is a slip); `decode_usize` on the empty slice
likewise indexes `bytes[0]` out of bounds. -/
theorem C2_decoder_panics :
    (Rlp.new [0x81]).is_int = .panic ∧ decode_usize [] = .panic := by decide

/-- C4: on `c3 01 02 03 04` (list header declaring 3 payload bytes, 4 bytes
following), `at(0)`, `at(1)`, `at(2)` succeed with the three declared
one-byte items and `at(3)` fails with `RlpIsTooShort (expected 4) (got 3)`:
navigation is bounded by the declared payload length, not the buffer. -/
theorem C4_at_respects_declared_len :
    ((Rlp.new [0xc3, 0x01, 0x02, 0x03, 0x04]).at 0).1 = .ok (Rlp.new [0x01]) ∧
    ((Rlp.new [0xc3, 0x01, 0x02, 0x03, 0x04]).at 1).1 = .ok (Rlp.new [0x02]) ∧
    ((Rlp.new [0xc3, 0x01, 0x02, 0x03, 0x04]).at 2).1 = .ok (Rlp.new [0x03]) ∧
    ((Rlp.new [0xc3, 0x01, 0x02, 0x03, 0x04]).at 3).1
      = .err (.RlpIsTooShort 4 3) := by decide

/-- C9 (counterexample to the claim that the caches never change any
observable result): on `[0xc2, 0x01, 0x82, 0x41, 0x42]` a fresh view's
`at(1)` truncates the payload to the declared 2 bytes, fails with
`RlpIsTooShort 1 0`, but has already set `offset_cache := (1, 2)`; the
repeated `at(1)` resumes from that cache over the untruncated buffer and
returns `Ok` over `[0x82, 0x41, 0x42]`. The source's own doc comment calls
the view immutable ("No operations change it"), so the cache path reading
past the declared payload region is a code bug. -/
theorem C9_cache_changes_result :
    (((Rlp.new [0xc2, 0x01, 0x82, 0x41, 0x42]).at 1).1 = .err (.RlpIsTooShort 1 0)) ∧
    ((((Rlp.new [0xc2, 0x01, 0x82, 0x41, 0x42]).at 1).2.at 1).1
      = .ok (Rlp.new [0x82, 0x41, 0x42])) := by decide

/-- C1 counterexample: the round-trip claim fails for `String`: the Rust
`String` value holding one NUL byte encodes fine (`String::rlp_append`
never looks at the bytes) but `String::decode` rejects the NUL byte, so
`decode(encode v) ≠ Ok v`. -/
theorem C1_string_nul_counterexample :
    stringDecode (stringEncode [0]) = .err .RlpNullTerminatedString ∧
    (stringDecode (stringEncode [0])).isOk = false := by decide

/-- C3 counterexample: on `[0xc2, 0xb8, 0x00]` the view is a list with
`item_count = Ok 0`, but `at(0)` fails with `RlpDataLenWithZeroPrefix`,
not with the `RlpIsTooShort` error the claim requires at index `n`. -/
theorem C3_at_n_not_tooshort_counterexample :
    ((Rlp.new [0xc2, 0xb8, 0x00]).item_count).1 = .ok 0 ∧
    ((Rlp.new [0xc2, 0xb8, 0x00]).at 0).1 = .err .RlpDataLenWithZeroPrefix ∧
    (((Rlp.new [0xc2, 0xb8, 0x00]).at 0).1).isTooShortErr = false := by decide

/-- C5 counterexample: on `[0xb8, 0x00]` (long-form prefix, zero first
length byte) the `decode_value` path returns `RlpInvalidIndirection` (the
zero byte is caught inside `decode_usize`), not `RlpDataLenWithZeroPrefix`
as the claim requires of every decode path. -/
theorem C5_decode_value_not_zeroprefix_counterexample :
    vecU8Decode [0xb8, 0x00] = .err .RlpInvalidIndirection ∧
    (vecU8Decode [0xb8, 0x00]).isZeroPrefixErr = false := by decide

/-- C6 counterexample: on `[0xb8, 0x01, 0x41]` (long form declaring a
1-byte payload, violating invariant I3) the `decode_value` path does not
return `RlpInvalidIndirection` as the claim requires of every decode path:
it succeeds, returning the payload `[0x41]`. -/
theorem C6_decode_value_accepts_short_longform_counterexample :
    vecU8Decode [0xb8, 0x01, 0x41] = .ok [0x41] ∧
    (vecU8Decode [0xb8, 0x01, 0x41]).isErr = false := by decide

/-- C8 counterexample to its universal half: on the 13-byte buffer the
overflow of `header_len + value_len` inside `BasicDecoder::payload_info`
is detected but mapped to `RlpIsTooShort 1 0`, not to the claimed
`RlpInvalidLength`. -/
theorem C8_payload_info_overflow_not_invalidlength :
    payload_info [0xbf, 0xff, 0xff, 0xff, 0xff, 0xff, 0xff, 0xff, 0xff,
        0xff, 0xff, 0xff, 0xe5]
      = .err (.RlpIsTooShort 1 0) ∧
    (payload_info [0xbf, 0xff, 0xff, 0xff, 0xff, 0xff, 0xff, 0xff, 0xff,
        0xff, 0xff, 0xff, 0xe5]).isInvalidLengthErr = false := by decide

/-- C7: for every non-zero byte `x < 0x80`, decoding the two-byte sequence
`[0x81, x]` as any of the fixed-width unsigned integer types (`u8`, `u16`,
`u32`, `u64`, `usize`, `U256`) yields `RlpInvalidIndirection`: the
single-byte form is the canonical encoding and `decode_value` rejects the
indirection before any closure runs. -/
theorem C7_noncanonical_single_byte : ∀ x, x < 0x80 → 0 < x →
    u8Decode [0x81, x] = .err .RlpInvalidIndirection ∧
    u16Decode [0x81, x] = .err .RlpInvalidIndirection ∧
    u32Decode [0x81, x] = .err .RlpInvalidIndirection ∧
    u64Decode [0x81, x] = .err .RlpInvalidIndirection ∧
    usizeDecode [0x81, x] = .err .RlpInvalidIndirection ∧
    u256Decode [0x81, x] = .err .RlpInvalidIndirection := by decide

/-- Witness for C7 at `x = 0x0f` (the spec's concrete scenario 3). -/
theorem C7_noncanonical_single_byte_witness :
    u8Decode [0x81, 0x0f] = .err .RlpInvalidIndirection ∧
    u256Decode [0x81, 0x0f] = .err .RlpInvalidIndirection :=
  ⟨(C7_noncanonical_single_byte 0x0f (by decide) (by decide)).1,
   (C7_noncanonical_single_byte 0x0f (by decide) (by decide)).2.2.2.2.2⟩

/-- C10: the NUL-byte check of `String::decode` runs before the UTF-8
validity check, so every payload containing a NUL byte is rejected with
`RlpNullTerminatedString` — also when the payload is not valid UTF-8
(no UTF-8 hypothesis appears below), so `RlpNullTerminatedString` takes
precedence over `RlpExpectedToBeData`. The second conjunct shows the
precedence on a full decode of a payload that is both NUL-carrying and
UTF-8-invalid. -/
theorem C10_nul_before_utf8 :
    (∀ payload, payload.contains 0 = true →
      stringDecodeValue payload = .err .RlpNullTerminatedString) ∧
    validUtf8 [0xff, 0x00] = false ∧
    stringDecode [0x82, 0xff, 0x00] = .err .RlpNullTerminatedString := by
  refine ⟨?_, by decide, by decide⟩
  intro payload h
  unfold stringDecodeValue
  rw [h]
  rfl

/-- Witness for C10 at the payload `[0xff, 0x00]`, which contains NUL and
is not valid UTF-8. -/
theorem C10_nul_before_utf8_witness :
    stringDecodeValue [0xff, 0x00] = .err .RlpNullTerminatedString :=
  C10_nul_before_utf8.1 [0xff, 0x00] (by decide)

theorem decode_value_cons {α : Type} (l : Nat) (rest : List Nat) (f : List Nat → DRes α) :
    decode_value (l :: rest) f =
      (if l ≤ 0x7f then f [l]
      else if l ≤ 0xb7 then
        (if (l :: rest).length < 1 + l - 0x80 then
          DRes.err (.RlpInconsistentLengthAndData (l :: rest).length (1 + l - 0x80))
        else
          if l = 0x81 ∧ (((l :: rest).drop 1).take (1 + l - 0x80 - 1)).headD 0 < 0x80 then
            DRes.err .RlpInvalidIndirection
          else f (((l :: rest).drop 1).take (1 + l - 0x80 - 1)))
      else if l ≤ 0xbf then
        (if (l :: rest).length < 1 + (l - 0xb7) then
          DRes.err (.RlpInconsistentLengthAndData (l :: rest).length (1 + (l - 0xb7)))
        else
          (decode_usize (((l :: rest).drop 1).take (l - 0xb7))).bind fun len =>
            match checkedAdd (1 + (l - 0xb7)) len with
            | none => DRes.err (.RlpInvalidLength usizeMax usizeMax)
            | some last_index_of_value =>
              if (l :: rest).length < last_index_of_value then
                DRes.err (.RlpInconsistentLengthAndData (l :: rest).length last_index_of_value)
              else f (((l :: rest).drop (1 + (l - 0xb7))).take len))
      else DRes.err .RlpExpectedToBeData) := rfl

theorem decode_usize_ok_elim {bs : List Nat} {n : Nat} (h : decode_usize bs = .ok n) :
    ∃ b0 t, bs = b0 :: t ∧ b0 ≠ 0 ∧ bs.length ≤ usizeSize ∧ beNat bs = n := by
  unfold decode_usize at h
  by_cases hlen : bs.length ≤ usizeSize
  · rw [if_pos hlen] at h
    cases bs with
    | nil => cases h
    | cons b0 t =>
      replace h : (if b0 = 0 then DRes.err DecoderError.RlpInvalidIndirection
        else DRes.ok (beNat (b0 :: t))) = DRes.ok n := h
      by_cases hb0 : b0 = 0
      · rw [if_pos hb0] at h
        cases h
      · rw [if_neg hb0] at h
        cases h
        exact ⟨b0, t, rfl, hb0, hlen, rfl⟩
  · rw [if_neg hlen] at h
    cases h

theorem calculate_zero_second_byte (b0 : Nat) (rest : List Nat) (k : Nat) :
    calculate_payload_info (b0 :: 0 :: rest) k = .err .RlpDataLenWithZeroPrefix := rfl

/-- C5 (amended): a zero first length byte after a long-form prefix is
reported as `RlpDataLenWithZeroPrefix` by `payload_info`; the
`decode_value` path fails too, but with `RlpInconsistentLengthAndData`
when the buffer is shorter than the declared length field, with
`RlpInvalidIndirection` (raised inside `decode_usize`) when the zero byte
is reached, and with `RlpExpectedToBeData` for the `0xf8..=0xff` (list)
prefixes — never with `RlpDataLenWithZeroPrefix`. -/
theorem C5_zero_first_length_byte :
    (∀ (b0 : Nat) (rest : List Nat),
      (0xb8 ≤ b0 ∧ b0 ≤ 0xbf) ∨ (0xf8 ≤ b0 ∧ b0 ≤ 0xff) →
      payload_info (b0 :: 0 :: rest) = .err .RlpDataLenWithZeroPrefix) ∧
    (∀ (α : Type) (f : List Nat → DRes α) (b0 : Nat) (rest : List Nat),
      0xb8 ≤ b0 → b0 ≤ 0xbf →
      decode_value (b0 :: 0 :: rest) f =
        (if (b0 :: 0 :: rest).length < 1 + (b0 - 0xb7) then
          .err (.RlpInconsistentLengthAndData (b0 :: 0 :: rest).length (1 + (b0 - 0xb7)))
        else .err .RlpInvalidIndirection)) ∧
    (∀ (α : Type) (f : List Nat → DRes α) (b0 : Nat) (rest : List Nat),
      0xf8 ≤ b0 → b0 ≤ 0xff →
      decode_value (b0 :: 0 :: rest) f = .err .RlpExpectedToBeData) := by
  refine ⟨?_, ?_, ?_⟩
  · intro b0 rest hb
    rw [payload_info_eq, fromBytes_cons]
    rcases hb with ⟨h1, h2⟩ | ⟨h1, h2⟩
    · rw [if_neg (by omega), if_neg (by omega), if_pos (by omega),
        calculate_zero_second_byte, DRes.bind_err]
    · rw [if_neg (by omega), if_neg (by omega), if_neg (by omega), if_neg (by omega),
        calculate_zero_second_byte, DRes.bind_err]
  · intro α f b0 rest h1 h2
    rw [decode_value_cons, if_neg (by omega), if_neg (by omega), if_pos (by omega)]
    by_cases hlen : (b0 :: 0 :: rest).length < 1 + (b0 - 0xb7)
    · rw [if_pos hlen, if_pos hlen]
    · rw [if_neg hlen, if_neg hlen]
      have hk1 : 1 ≤ b0 - 0xb7 := by omega
      have htake : ((b0 :: 0 :: rest).drop 1).take (b0 - 0xb7)
          = 0 :: rest.take (b0 - 0xb7 - 1) := by
        rw [List.drop_one, List.tail_cons]
        cases hk : b0 - 0xb7 with
        | zero => omega
        | succ m =>
          rw [List.take_succ_cons]
          norm_num
      rw [htake]
      have hdu : decode_usize (0 :: rest.take (b0 - 0xb7 - 1)) = .err .RlpInvalidIndirection := by
        unfold decode_usize
        rw [if_pos (by
          simp only [List.length_cons, List.length_take]
          have : min (b0 - 0xb7 - 1) rest.length ≤ b0 - 0xb7 - 1 := Nat.min_le_left _ _
          unfold usizeSize
          omega)]
        rfl
      rw [hdu, DRes.bind_err]
  · intro α f b0 rest h1 h2
    rw [decode_value_cons, if_neg (by omega), if_neg (by omega), if_neg (by omega)]

/-- Witness for C5 at the buffers `[0xb8, 0x00]` (full length field),
`[0xba, 0x00]` (truncated length field) and `[0xf8, 0x00]` (list prefix). -/
theorem C5_zero_first_length_byte_witness :
    payload_info [0xb8, 0x00] = .err .RlpDataLenWithZeroPrefix ∧
    vecU8Decode [0xb8, 0x00] = .err .RlpInvalidIndirection ∧
    vecU8Decode [0xba, 0x00] = .err (.RlpInconsistentLengthAndData 2 4) ∧
    vecVecU8Decode [0xf8, 0x00] = .ok [] ∧
    decode_value [0xf8, 0x00] (fun d => DRes.ok d) = .err .RlpExpectedToBeData := by
  refine ⟨C5_zero_first_length_byte.1 0xb8 [] (by omega), ?_, ?_, by decide,
    C5_zero_first_length_byte.2.2 (List Nat) (fun d => DRes.ok d) 0xf8 [] (by omega) (by omega)⟩
  · have := C5_zero_first_length_byte.2.1 (List Nat) (fun d => DRes.ok d) 0xb8 [] (by omega) (by omega)
    unfold vecU8Decode
    rw [this]
    decide
  · have := C5_zero_first_length_byte.2.1 (List Nat) (fun d => DRes.ok d) 0xba [] (by omega) (by omega)
    unfold vecU8Decode
    rw [this]
    decide

/-- C6 (amended): a long-form header whose decoded payload length is at
most 55 violates invariant I3 and `payload_info` rejects it with
`RlpInvalidIndirection` (given the buffer holds the whole length field);
but the `decode_value` path never performs this check and accepts such
input, e.g. `[0xb8, 0x01, 0x41]` decodes as the byte vector `[0x41]`. -/
theorem C6_longform_short_length :
    (∀ (b0 n : Nat) (rest : List Nat),
      0xb8 ≤ b0 → b0 ≤ 0xbf → 1 + (b0 - 0xb7) ≤ (b0 :: rest).length →
      decode_usize (rest.take (b0 - 0xb7)) = .ok n → n ≤ 55 →
      payload_info (b0 :: rest) = .err .RlpInvalidIndirection) ∧
    (∀ (b0 n : Nat) (rest : List Nat),
      0xf8 ≤ b0 → b0 ≤ 0xff → 1 + (b0 - 0xf7) ≤ (b0 :: rest).length →
      decode_usize (rest.take (b0 - 0xf7)) = .ok n → n ≤ 55 →
      payload_info (b0 :: rest) = .err .RlpInvalidIndirection) ∧
    vecU8Decode [0xb8, 0x01, 0x41] = .ok [0x41] := by
  have hcalc : ∀ (b0 k n : Nat) (rest : List Nat), 1 + k ≤ (b0 :: rest).length →
      decode_usize (rest.take k) = .ok n → n ≤ 55 →
      calculate_payload_info (b0 :: rest) k = .err .RlpInvalidIndirection := by
    intro b0 k n rest hlen hdu h55
    obtain ⟨r0, t, hrt, hr0, -, -⟩ := decode_usize_ok_elim hdu
    obtain ⟨m, hm⟩ : ∃ m, r0 = m + 1 := by
      cases r0 with
      | zero => exact absurd rfl hr0
      | succ m => exact ⟨m, rfl⟩
    have hrest : ∃ t', rest = r0 :: t' := by
      cases rest with
      | nil =>
        simp at hrt
      | cons a t' =>
        cases hk : k with
        | zero => rw [hk] at hrt; simp at hrt
        | succ j =>
          rw [hk, List.take_succ_cons] at hrt
          rw [List.cons.injEq] at hrt
          exact ⟨t', by rw [hrt.1]⟩
    obtain ⟨t', rfl⟩ := hrest
    unfold calculate_payload_info
    have hget : (b0 :: r0 :: t').get? 1 = some (m + 1) := by
      rw [List.get?_cons_succ, List.get?_cons_zero, hm]
    rw [hget]
    show (if (b0 :: r0 :: t').length < 1 + k then
        DRes.err (DecoderError.RlpIsTooShort (1 + k) (b0 :: r0 :: t').length)
      else (decode_usize (List.take k (List.drop 1 (b0 :: r0 :: t')))).bind fun value_len =>
        if value_len ≤ 55 then DRes.err DecoderError.RlpInvalidIndirection
        else DRes.ok (PayloadInfo.mk (1 + k) value_len)) = _
    rw [if_neg (by omega)]
    rw [List.drop_one, List.tail_cons, hdu, DRes.bind_ok, if_pos h55]
  refine ⟨?_, ?_, by decide⟩
  · intro b0 n rest h1 h2 hlen hdu h55
    rw [payload_info_eq, fromBytes_cons, if_neg (by omega), if_neg (by omega),
      if_pos (by omega), hcalc b0 (b0 - 0xb7) n rest hlen hdu h55, DRes.bind_err]
  · intro b0 n rest h1 h2 hlen hdu h55
    rw [payload_info_eq, fromBytes_cons, if_neg (by omega), if_neg (by omega),
      if_neg (by omega), if_neg (by omega), hcalc b0 (b0 - 0xf7) n rest hlen hdu h55,
      DRes.bind_err]

/-- Witness for C6 at `[0xb8, 0x05]` (data) and `[0xf8, 0x05]` (list):
both long-form headers declare a 5-byte payload, and `payload_info`
rejects both with `RlpInvalidIndirection`. -/
theorem C6_longform_short_length_witness :
    payload_info [0xb8, 0x05] = .err .RlpInvalidIndirection ∧
    payload_info [0xf8, 0x05] = .err .RlpInvalidIndirection :=
  ⟨C6_longform_short_length.1 0xb8 5 [0x05] (by omega) (by omega) (by decide)
      (by decide) (by decide),
   C6_longform_short_length.2.1 0xf8 5 [0x05] (by omega) (by omega) (by decide)
      (by decide) (by decide)⟩

/-- C8 (amended): decoding the 13-byte buffer
`bf ff ff ff ff ff ff ff ff ff ff ff e5` as a `u8` fails with
`RlpInvalidLength (usize::MAX) (usize::MAX)`; in general, `decode_value`
detects the overflow of `begin_of_value + len` with `checked_add` and maps
it to `RlpInvalidLength` rather than wrapping; `payload_info`, however,
maps the same detected overflow to `RlpIsTooShort 1 0`. -/
theorem C8_length_overflow :
    u8Decode [0xbf, 0xff, 0xff, 0xff, 0xff, 0xff, 0xff, 0xff, 0xff,
        0xff, 0xff, 0xff, 0xe5]
      = .err (.RlpInvalidLength usizeMax usizeMax) ∧
    (∀ (α : Type) (f : List Nat → DRes α) (b0 n : Nat) (rest : List Nat),
      0xb8 ≤ b0 → b0 ≤ 0xbf → 1 + (b0 - 0xb7) ≤ (b0 :: rest).length →
      decode_usize (rest.take (b0 - 0xb7)) = .ok n →
      usizeMax < 1 + (b0 - 0xb7) + n →
      decode_value (b0 :: rest) f = .err (.RlpInvalidLength usizeMax usizeMax)) ∧
    payload_info [0xbf, 0xff, 0xff, 0xff, 0xff, 0xff, 0xff, 0xff, 0xff,
        0xff, 0xff, 0xff, 0xe5]
      = .err (.RlpIsTooShort 1 0) := by
  refine ⟨by decide, ?_, by decide⟩
  intro α f b0 n rest h1 h2 hlen hdu hov
  rw [decode_value_cons, if_neg (by omega), if_neg (by omega), if_pos (by omega),
    if_neg (by omega)]
  rw [List.drop_one, List.tail_cons, hdu, DRes.bind_ok]
  have hca : checkedAdd (1 + (b0 - 0xb7)) n = none := by
    unfold checkedAdd
    rw [if_neg (by omega)]
  rw [hca]

/-- Witness for C8's universal part at the 13-byte buffer itself, with the
`u8` closure as `f`. -/
theorem C8_length_overflow_witness :
    decode_value [0xbf, 0xff, 0xff, 0xff, 0xff, 0xff, 0xff, 0xff, 0xff,
        0xff, 0xff, 0xff, 0xe5] u8DecodeValue
      = .err (.RlpInvalidLength usizeMax usizeMax) :=
  C8_length_overflow.2.1 Nat u8DecodeValue 0xbf (2 ^ 64 - 1)
    [0xff, 0xff, 0xff, 0xff, 0xff, 0xff, 0xff, 0xff, 0xff, 0xff, 0xff, 0xe5]
    (by omega) (by omega) (by decide) (by decide) (by decide)

theorem DRes.bind_eq_ok' {α β : Type} {x : DRes α} {f : α → DRes β} {b : β}
    (h : x.bind f = .ok b) : ∃ a, x = .ok a ∧ f a = .ok b :=
  DRes.bind_eq_ok.mp h

theorem consume_items_ge {bytes : List Nat} {m : Nat} {rest : List Nat} {c : Nat}
    (h : Rlp.consume_items bytes m = .ok (rest, c)) : m ≤ c := by
  induction m generalizing bytes rest c with
  | zero => omega
  | succ n ih =>
    unfold Rlp.consume_items at h
    obtain ⟨pinfo, hpi, h⟩ := DRes.bind_eq_ok' h
    obtain ⟨rest1, hcons, h⟩ := DRes.bind_eq_ok' h
    obtain ⟨r2, hrec, h⟩ := DRes.bind_eq_ok' h
    cases h
    have h1 : 1 ≤ pinfo.header_len + pinfo.value_len := by
      obtain ⟨hfrom, -, -⟩ := payload_info_ok_elim hpi
      exact fromBytes_total_pos hfrom
    obtain ⟨r2a, r2b⟩ := r2
    have := ih hrec
    simp only [PayloadInfo.total] at h1
    omega

theorem decode_usize_ne_panic {bs : List Nat} (h : bs ≠ []) :
    decode_usize bs ≠ .panic := by
  unfold decode_usize
  by_cases hlen : bs.length ≤ usizeSize
  · rw [if_pos hlen]
    cases bs with
    | nil => exact absurd rfl h
    | cons b0 t =>
      show (if b0 = 0 then DRes.err DecoderError.RlpInvalidIndirection
        else DRes.ok (beNat (b0 :: t))) ≠ DRes.panic
      by_cases hb : b0 = 0
      · rw [if_pos hb]; simp
      · rw [if_neg hb]; simp
  · rw [if_neg hlen]; simp

theorem DRes.bind_ne_panic {α β : Type} {x : DRes α} {f : α → DRes β}
    (hx : x ≠ .panic) (hf : ∀ a, f a ≠ .panic) : x.bind f ≠ .panic := by
  cases x with
  | ok a => exact hf a
  | err e => simp [DRes.bind]
  | panic => exact absurd rfl hx

theorem calculate_ne_panic (hb : List Nat) {k : Nat} (hk : 1 ≤ k) :
    calculate_payload_info hb k ≠ .panic := by
  unfold calculate_payload_info
  cases hget : hb.get? 1 with
  | none => simp
  | some b1 =>
    cases b1 with
    | zero => simp
    | succ m =>
      show (if hb.length < 1 + k then
          DRes.err (DecoderError.RlpIsTooShort (1 + k) hb.length)
        else (decode_usize (List.take k (List.drop 1 hb))).bind fun value_len =>
          if value_len ≤ 55 then DRes.err DecoderError.RlpInvalidIndirection
          else DRes.ok (PayloadInfo.mk (1 + k) value_len)) ≠ DRes.panic
      by_cases hlen : hb.length < 1 + k
      · rw [if_pos hlen]; simp
      · rw [if_neg hlen]
        apply DRes.bind_ne_panic
        · apply decode_usize_ne_panic
          have h2 : 2 ≤ hb.length := by
            cases hb with
            | nil => simp at hget
            | cons a t =>
              cases t with
              | nil => simp at hget
              | cons c u => simp only [List.length_cons]; omega
          have hlt : (List.take k (List.drop 1 hb)).length = min k (hb.length - 1) := by
            simp
          intro hnil
          rw [hnil] at hlt
          simp at hlt
          omega
        · intro a
          by_cases ha : a ≤ 55
          · rw [if_pos ha]; simp
          · rw [if_neg ha]; simp

theorem fromBytes_ne_panic (bytes : List Nat) : PayloadInfo.fromBytes bytes ≠ .panic := by
  cases bytes with
  | nil => simp [PayloadInfo.fromBytes]
  | cons l rest =>
    rw [fromBytes_cons]
    by_cases h1 : l ≤ 0x7f
    · rw [if_pos h1]; simp
    · rw [if_neg h1]
      by_cases h2 : l ≤ 0xb7
      · rw [if_pos h2]; simp
      · rw [if_neg h2]
        by_cases h3 : l ≤ 0xbf
        · rw [if_pos h3]
          exact calculate_ne_panic _ (by omega)
        · rw [if_neg h3]
          by_cases h4 : l ≤ 0xf7
          · rw [if_pos h4]; simp
          · rw [if_neg h4]
            exact calculate_ne_panic _ (by omega)

theorem payload_info_ne_panic (bytes : List Nat) : payload_info bytes ≠ .panic := by
  rw [payload_info_eq]
  apply DRes.bind_ne_panic (fromBytes_ne_panic bytes)
  intro a
  by_cases hov : a.header_len + a.value_len ≤ usizeMax
  · rw [if_pos hov]
    by_cases hle : a.header_len + a.value_len ≤ bytes.length
    · rw [if_pos hle]; simp
    · rw [if_neg hle]; simp
  · rw [if_neg hov]; simp

theorem consume_ne_panic (bytes : List Nat) (len : Nat) :
    Rlp.consume bytes len ≠ .panic := by
  unfold Rlp.consume
  by_cases h : len ≤ bytes.length
  · rw [if_pos h]; simp
  · rw [if_neg h]; simp

theorem consume_items_ne_panic (bytes : List Nat) (items : Nat) :
    Rlp.consume_items bytes items ≠ .panic := by
  induction items generalizing bytes with
  | zero => simp [Rlp.consume_items]
  | succ n ih =>
    unfold Rlp.consume_items
    apply DRes.bind_ne_panic (payload_info_ne_panic bytes)
    intro i
    apply DRes.bind_ne_panic (consume_ne_panic bytes _)
    intro rest
    apply DRes.bind_ne_panic (ih rest)
    intro r
    simp

theorem consume_list_payload_ne_panic (L : Rlp) :
    L.consume_list_payload ≠ .panic := by
  unfold Rlp.consume_list_payload
  apply DRes.bind_ne_panic (payload_info_ne_panic L.bytes)
  intro item
  by_cases h : L.bytes.length < item.header_len + item.value_len
  · rw [if_pos h]; simp
  · rw [if_neg h]; simp

theorem atStep_spec (L : Rlp) (i : Nat) (step : DRes (List Nat × Nat × Nat))
    {r : DRes Rlp} {L' : Rlp} (hne : step ≠ .panic)
    (heq : Rlp.atStep L i step = (r, L')) :
    (L'.bytes = L.bytes ∧ L'.count_cache = L.count_cache) ∧ r ≠ .panic ∧
    (∀ e, step = .err e → r = .err e ∧ L' = L) ∧
    (∀ sub, r = .ok sub →
      ∃ off, L'.offset_cache = some ⟨i, off⟩ ∧ off + 1 ≤ L.bytes.length ∧
        ∀ sb sk bc, step = .ok (sb, sk, bc) → bc + sk ≤ off) := by
  cases step with
  | panic => exact absurd rfl hne
  | err e =>
    unfold Rlp.atStep at heq
    cases heq
    exact ⟨⟨rfl, rfl⟩, by simp, (by intro e' he; cases he; exact ⟨rfl, rfl⟩),
      (by intro sub h; cases h)⟩
  | ok t =>
    obtain ⟨sb, sk, bc⟩ := t
    replace heq : (match Rlp.consume_items sb sk with
      | .err e => ((.err e : DRes Rlp), L)
      | .panic => ((.panic : DRes Rlp), L)
      | .ok (bytes2, consumed) =>
        match payload_info L.bytes with
        | .err e => ((.err e : DRes Rlp), L)
        | .panic => ((.panic : DRes Rlp), L)
        | .ok pinfo =>
          if bc + consumed > pinfo.header_len + pinfo.value_len - 1 then
            ((.err (.RlpIsTooShort (bc + consumed)
              (pinfo.header_len + pinfo.value_len - 1)) : DRes Rlp), L)
          else
            match payload_info bytes2 with
            | .err e => ((.err e : DRes Rlp),
                { L with offset_cache := some ⟨i, bc + consumed⟩ })
            | .panic => ((.panic : DRes Rlp),
                { L with offset_cache := some ⟨i, bc + consumed⟩ })
            | .ok found =>
              ((.ok (Rlp.new (bytes2.take (found.header_len + found.value_len))) : DRes Rlp),
                { L with offset_cache := some ⟨i, bc + consumed⟩ })) = (r, L') := heq
    cases hci : Rlp.consume_items sb sk with
    | panic => exact absurd hci (consume_items_ne_panic _ _)
    | err e =>
      rw [hci] at heq
      cases heq
      exact ⟨⟨rfl, rfl⟩, by simp, (by intro e' he; cases he), (by intro sub h; cases h)⟩
    | ok t2 =>
      rw [hci] at heq
      obtain ⟨bytes2, consumed⟩ := t2
      replace heq : (match payload_info L.bytes with
        | .err e => ((.err e : DRes Rlp), L)
        | .panic => ((.panic : DRes Rlp), L)
        | .ok pinfo =>
          if bc + consumed > pinfo.header_len + pinfo.value_len - 1 then
            ((.err (.RlpIsTooShort (bc + consumed)
              (pinfo.header_len + pinfo.value_len - 1)) : DRes Rlp), L)
          else
            match payload_info bytes2 with
            | .err e => ((.err e : DRes Rlp),
                { L with offset_cache := some ⟨i, bc + consumed⟩ })
            | .panic => ((.panic : DRes Rlp),
                { L with offset_cache := some ⟨i, bc + consumed⟩ })
            | .ok found =>
              ((.ok (Rlp.new (bytes2.take (found.header_len + found.value_len))) : DRes Rlp),
                { L with offset_cache := some ⟨i, bc + consumed⟩ })) = (r, L') := heq
      cases hpi : payload_info L.bytes with
      | panic => exact absurd hpi (payload_info_ne_panic _)
      | err e =>
        rw [hpi] at heq
        cases heq
        exact ⟨⟨rfl, rfl⟩, by simp, (by intro e' he; cases he), (by intro sub h; cases h)⟩
      | ok pinfo =>
        rw [hpi] at heq
        replace heq : (if bc + consumed > pinfo.header_len + pinfo.value_len - 1 then
            ((.err (.RlpIsTooShort (bc + consumed)
              (pinfo.header_len + pinfo.value_len - 1)) : DRes Rlp), L)
          else
            match payload_info bytes2 with
            | .err e => ((.err e : DRes Rlp),
                { L with offset_cache := some ⟨i, bc + consumed⟩ })
            | .panic => ((.panic : DRes Rlp),
                { L with offset_cache := some ⟨i, bc + consumed⟩ })
            | .ok found =>
              ((.ok (Rlp.new (bytes2.take (found.header_len + found.value_len))) : DRes Rlp),
                { L with offset_cache := some ⟨i, bc + consumed⟩ })) = (r, L') := heq
        by_cases hoff : bc + consumed > pinfo.header_len + pinfo.value_len - 1
        · rw [if_pos hoff] at heq
          cases heq
          exact ⟨⟨rfl, rfl⟩, by simp, (by intro e' he; cases he), (by intro sub h; cases h)⟩
        · rw [if_neg hoff] at heq
          have htot : pinfo.header_len + pinfo.value_len ≤ L.bytes.length :=
            (payload_info_ok_elim hpi).2.1
          have htot1 : 1 ≤ pinfo.header_len + pinfo.value_len :=
            fromBytes_total_pos (payload_info_ok_elim hpi).1
          cases hf : payload_info bytes2 with
          | panic => exact absurd hf (payload_info_ne_panic _)
          | err e =>
            rw [hf] at heq
            cases heq
            refine ⟨⟨rfl, rfl⟩, by simp, (by intro e' he; cases he), ?_⟩
            intro sub h; cases h
          | ok found =>
            rw [hf] at heq
            cases heq
            refine ⟨⟨rfl, rfl⟩, by simp, (by intro e' he; cases he), ?_⟩
            intro sub hsub
            refine ⟨bc + consumed, rfl, by omega, ?_⟩
            intro sb' sk' bc' hok
            cases hok
            exact Nat.add_le_add (le_refl _) (consume_items_ge hci)

theorem at_spec (L : Rlp) (i : Nat) {r : DRes Rlp} {L' : Rlp}
    (heq : L.at i = (r, L')) :
    (L'.bytes = L.bytes ∧ L'.count_cache = L.count_cache) ∧ r ≠ .panic ∧
    (∀ sub, r = .ok sub →
      ∃ off, L'.offset_cache = some ⟨i, off⟩ ∧ off + 1 ≤ L.bytes.length ∧
        (∀ cache, L.offset_cache = some cache → cache.index ≤ i →
          cache.offset + (i - cache.index) ≤ off)) := by
  by_cases hlist : !L.is_list
  · replace heq : ((.err .RlpExpectedToBeList : DRes Rlp), L) = (r, L') := by
      rw [← heq]
      unfold Rlp.at
      rw [if_pos hlist]
    cases heq
    exact ⟨⟨rfl, rfl⟩, by simp, (by intro sub h; cases h)⟩
  · have heq2 : Rlp.atStep L i (match L.offset_cache with
      | some cache =>
        if cache.index ≤ i then
          (Rlp.consume L.bytes cache.offset).bind fun b =>
            .ok (b, i - cache.index, cache.offset)
        else L.consume_list_payload.bind fun bc => .ok (bc.1, i, bc.2)
      | none => L.consume_list_payload.bind fun bc => .ok (bc.1, i, bc.2)) = (r, L') := by
      rw [← heq]
      unfold Rlp.at
      rw [if_neg hlist]
    cases hc : L.offset_cache with
    | none =>
      rw [hc] at heq2
      have hspec := atStep_spec L i _
        (DRes.bind_ne_panic (consume_list_payload_ne_panic L) (by intro bc; simp)) heq2
      refine ⟨hspec.1, hspec.2.1, ?_⟩
      intro sub hsub
      obtain ⟨off, hoc, hb, -⟩ := hspec.2.2.2 sub hsub
      refine ⟨off, hoc, hb, ?_⟩
      intro cache hcache
      cases hcache
    | some cache =>
      rw [hc] at heq2
      by_cases hidx : cache.index ≤ i
      · replace heq2 : Rlp.atStep L i ((Rlp.consume L.bytes cache.offset).bind fun b =>
            .ok (b, i - cache.index, cache.offset)) = (r, L') := by
          rw [← heq2]
          show Rlp.atStep L i _ = Rlp.atStep L i _
          congr 1
          show _ = if cache.index ≤ i then _ else _
          rw [if_pos hidx]
        cases hcons : Rlp.consume L.bytes cache.offset with
        | panic => exact absurd hcons (consume_ne_panic _ _)
        | err e =>
          rw [hcons] at heq2
          have hspec := atStep_spec L i _ (by simp [DRes.bind]) heq2
          refine ⟨hspec.1, hspec.2.1, ?_⟩
          intro sub hsub
          obtain ⟨hre, -⟩ := hspec.2.2.1 e (by rfl)
          rw [hsub] at hre
          cases hre
        | ok b =>
          rw [hcons] at heq2
          have hspec := atStep_spec L i _ (by simp [DRes.bind]) heq2
          refine ⟨hspec.1, hspec.2.1, ?_⟩
          intro sub hsub
          obtain ⟨off, hoc, hb, hbound⟩ := hspec.2.2.2 sub hsub
          refine ⟨off, hoc, hb, ?_⟩
          intro cache' hcache' hidx'
          cases hcache'
          exact hbound b (i - cache.index) cache.offset rfl
      · replace heq2 : Rlp.atStep L i (L.consume_list_payload.bind fun bc =>
            .ok (bc.1, i, bc.2)) = (r, L') := by
          rw [← heq2]
          show Rlp.atStep L i _ = Rlp.atStep L i _
          congr 1
          show _ = if cache.index ≤ i then _ else _
          rw [if_neg hidx]
        have hspec := atStep_spec L i _
          (DRes.bind_ne_panic (consume_list_payload_ne_panic L) (by intro bc; simp)) heq2
        refine ⟨hspec.1, hspec.2.1, ?_⟩
        intro sub hsub
        obtain ⟨off, hoc, hb, -⟩ := hspec.2.2.2 sub hsub
        refine ⟨off, hoc, hb, ?_⟩
        intro cache' hcache' hidx'
        cases hcache'
        exact absurd hidx' hidx

theorem at_ne_panic (L : Rlp) (i : Nat) : (L.at i).1 ≠ .panic :=
  (at_spec L i (rfl : L.at i = ((L.at i).1, (L.at i).2))).2.1

theorem atSeq_zero (L : Rlp) (start : Nat) : Rlp.atSeq L start 0 = ([], L) := rfl

theorem atSeq_succ (L : Rlp) (start n : Nat) :
    Rlp.atSeq L start (n + 1) =
      ((L.at start).1 :: (Rlp.atSeq (L.at start).2 (start + 1) n).1,
        (Rlp.atSeq (L.at start).2 (start + 1) n).2) := rfl

theorem iterList_succ (L : Rlp) (idx fuel : Nat) :
    L.iterList idx (fuel + 1) = (match L.at idx with
      | (.ok sub, self') =>
        (Rlp.iterList self' (idx + 1) fuel).bind fun rr => .ok (sub :: rr.1, rr.2)
      | (.err _, self') => .ok ([], self')
      | (.panic, _) => .panic) := rfl

theorem iterList_spec : ∀ (fuel : Nat) (L : Rlp) (idx : Nat),
    ∃ subs L₁, L.iterList idx fuel = .ok (subs, L₁) ∧ subs.length ≤ fuel ∧
      L₁.bytes = L.bytes ∧
      (Rlp.atSeq L idx subs.length).1 = subs.map DRes.ok ∧
      (subs.length < fuel →
        ∃ e, (((Rlp.atSeq L idx subs.length).2).at (idx + subs.length)).1 = .err e) := by
  intro fuel
  induction fuel with
  | zero =>
    intro L idx
    exact ⟨[], L, rfl, by simp, rfl, rfl, (by intro h; simp at h)⟩
  | succ fuel ih =>
    intro L idx
    rcases hat : L.at idx with ⟨r, L'⟩
    have hiter : L.iterList idx (fuel + 1) = (match ((r, L') : DRes Rlp × Rlp) with
      | (.ok sub, self') =>
        (Rlp.iterList self' (idx + 1) fuel).bind fun rr => .ok (sub :: rr.1, rr.2)
      | (.err _, self') => .ok ([], self')
      | (.panic, _) => .panic) := by
      rw [iterList_succ, hat]
    cases r with
    | panic =>
      have hnp := at_ne_panic L idx
      rw [hat] at hnp
      exact absurd rfl hnp
    | err e =>
      refine ⟨[], L', ?_, by simp, ((at_spec L idx hat).1).1, rfl, ?_⟩
      · rw [hiter]
      · intro h
        refine ⟨e, ?_⟩
        show ((Rlp.atSeq L idx 0).2.at (idx + 0)).1 = .err e
        rw [atSeq_zero]
        show (L.at (idx + 0)).1 = .err e
        rw [Nat.add_zero, hat]
    | ok sub =>
      obtain ⟨rest, L₁, hrec, hlen, hbytes, hseq, herr⟩ := ih L' (idx + 1)
      have hseq' : Rlp.atSeq L idx (rest.length + 1) =
          (DRes.ok sub :: (Rlp.atSeq L' (idx + 1) rest.length).1,
            (Rlp.atSeq L' (idx + 1) rest.length).2) := by
        rw [atSeq_succ, hat]
      refine ⟨sub :: rest, L₁, ?_, ?_, ?_, ?_, ?_⟩
      · rw [hiter]
        show (Rlp.iterList L' (idx + 1) fuel).bind
            (fun rr => .ok (sub :: rr.1, rr.2)) = _
        rw [hrec, DRes.bind_ok]
      · simp only [List.length_cons]
        omega
      · rw [hbytes]
        exact ((at_spec L idx hat).1).1
      · show (Rlp.atSeq L idx (rest.length + 1)).1 = _
        rw [hseq']
        simp only [List.map_cons]
        rw [hseq]
      · intro h
        simp only [List.length_cons] at h
        obtain ⟨e, he⟩ := herr (by omega)
        refine ⟨e, ?_⟩
        show ((Rlp.atSeq L idx (rest.length + 1)).2.at (idx + (rest.length + 1))).1 = .err e
        rw [hseq']
        show ((Rlp.atSeq L' (idx + 1) rest.length).2.at (idx + (rest.length + 1))).1 = .err e
        have harith : idx + (rest.length + 1) = (idx + 1) + rest.length := by omega
        rw [harith]
        exact he

theorem iterList_chain : ∀ (fuel : Nat) (L : Rlp) (idx off : Nat),
    L.offset_cache = some ⟨idx - 1, off⟩ → 1 ≤ idx → off + 1 ≤ L.bytes.length →
    ∀ subs L₁, L.iterList idx fuel = .ok (subs, L₁) → subs.length = fuel →
    fuel + off + 1 ≤ L.bytes.length := by
  intro fuel
  induction fuel with
  | zero =>
    intro L idx off hcache hidx hoff subs L₁ hit hlen
    omega
  | succ fuel ih =>
    intro L idx off hcache hidx hoff subs L₁ hit hlen
    rw [iterList_succ] at hit
    rcases hat : L.at idx with ⟨r, L'⟩
    rw [hat] at hit
    cases r with
    | panic =>
      have hnp := at_ne_panic L idx
      rw [hat] at hnp
      exact absurd rfl hnp
    | err e =>
      replace hit : (DRes.ok ([], L') : DRes (List Rlp × Rlp)) = DRes.ok (subs, L₁) := hit
      cases hit
      simp at hlen
    | ok sub =>
      replace hit : (Rlp.iterList L' (idx + 1) fuel).bind
          (fun rr => DRes.ok (sub :: rr.1, rr.2)) = DRes.ok (subs, L₁) := hit
      obtain ⟨rr, hrec, hpack⟩ := DRes.bind_eq_ok' hit
      obtain ⟨rest, L₂⟩ := rr
      replace hpack : (DRes.ok (sub :: rest, L₂) : DRes (List Rlp × Rlp))
          = DRes.ok (subs, L₁) := hpack
      cases hpack
      simp only [List.length_cons] at hlen
      have hspec := at_spec L idx hat
      obtain ⟨off', hoc, hob, hbound⟩ := hspec.2.2 sub rfl
      have hstep : off + 1 ≤ off' := by
        have h2 : off + (idx - (idx - 1)) ≤ off' :=
          hbound ⟨idx - 1, off⟩ hcache (by show idx - 1 ≤ idx; omega)
        omega
      have hbytes : L'.bytes = L.bytes := (hspec.1).1
      have := ih L' (idx + 1) off' (by rw [hoc]; congr 1)
        (by omega) (by rw [hbytes]; omega) rest _ hrec (by omega)
      rw [hbytes] at this
      omega

theorem iterList_length_lt (L : Rlp) (idx : Nat) {subs : List Rlp} {L₁ : Rlp}
    (h : L.iterList idx (L.bytes.length + 2) = .ok (subs, L₁)) :
    subs.length < L.bytes.length + 2 := by
  obtain ⟨subs', L₁', hit', hlen', -, -, -⟩ := iterList_spec (L.bytes.length + 2) L idx
  rw [h] at hit'
  cases hit'
  rcases Nat.lt_or_ge subs.length (L.bytes.length + 2) with hlt | hge
  · exact hlt
  · have hlen : subs.length = L.bytes.length + 2 := by omega
    exfalso
    rw [iterList_succ] at h
    rcases hat : L.at idx with ⟨r, L'⟩
    rw [hat] at h
    cases r with
    | panic =>
      have hnp := at_ne_panic L idx
      rw [hat] at hnp
      exact absurd rfl hnp
    | err e =>
      replace h : (DRes.ok ([], L') : DRes (List Rlp × Rlp)) = DRes.ok (subs, L₁) := h
      cases h
      simp at hlen
    | ok sub =>
      replace h : (Rlp.iterList L' (idx + 1) (L.bytes.length + 1)).bind
          (fun rr => DRes.ok (sub :: rr.1, rr.2)) = DRes.ok (subs, L₁) := h
      obtain ⟨rr, hrec, hpack⟩ := DRes.bind_eq_ok' h
      obtain ⟨rest, L₂⟩ := rr
      replace hpack : (DRes.ok (sub :: rest, L₂) : DRes (List Rlp × Rlp))
          = DRes.ok (subs, L₁) := hpack
      cases hpack
      simp only [List.length_cons] at hlen
      have hspec := at_spec L idx hat
      obtain ⟨off', hoc, hob, -⟩ := hspec.2.2 sub rfl
      have hbytes : L'.bytes = L.bytes := (hspec.1).1
      have := iterList_chain (L.bytes.length + 1) L' (idx + 1) off'
        (by rw [hoc]; congr 1) (by omega) (by rw [hbytes]; omega) rest _ hrec (by omega)
      rw [hbytes] at this
      omega

/-- C3 (amended): for every byte slice whose fresh view has
`item_count = Ok n`, iterating the view yields exactly `n` sub-views, the
session of calls `at(0), ..., at(n-1)` on a fresh view over the same slice
(threading the cache exactly as the iterator does) succeeds with the same
sub-views byte for byte, and the subsequent `at(n)` fails — with some
`DecoderError`, not necessarily `RlpIsTooShort` as the original claim
stated. -/
theorem C3_iteration_matches_at :
    ∀ (bytes : List Nat) (n : Nat),
      ((Rlp.new bytes).item_count).1 = .ok n →
      ∃ subs L₁,
        (Rlp.new bytes).iterList 0 (bytes.length + 2) = .ok (subs, L₁) ∧
        subs.length = n ∧
        (Rlp.atSeq (Rlp.new bytes) 0 n).1 = subs.map DRes.ok ∧
        ∃ e, (((Rlp.atSeq (Rlp.new bytes) 0 n).2).at n).1 = .err e := by
  intro bytes n h
  by_cases hlist : !(Rlp.new bytes).is_list
  · replace h : (DRes.err DecoderError.RlpExpectedToBeList : DRes Nat) = .ok n := by
      rw [← h]
      unfold Rlp.item_count
      rw [if_pos hlist]
    cases h
  · replace h : (match (Rlp.new bytes).iterList 0 (bytes.length + 2) with
      | .ok (items, self') => ((.ok items.length : DRes Nat),
          { self' with count_cache := some items.length })
      | .err e => ((.err e : DRes Nat), Rlp.new bytes)
      | .panic => ((.panic : DRes Nat), Rlp.new bytes)).1 = .ok n := by
      rw [← h]
      unfold Rlp.item_count
      rw [if_neg hlist]
      rfl
    cases hit : (Rlp.new bytes).iterList 0 (bytes.length + 2) with
    | err e =>
      rw [hit] at h
      cases h
    | panic =>
      obtain ⟨subs', L₁', hit', -⟩ := iterList_spec (bytes.length + 2) (Rlp.new bytes) 0
      rw [hit] at hit'
      cases hit'
    | ok pair =>
      rw [hit] at h
      obtain ⟨items, self'⟩ := pair
      replace h : (DRes.ok items.length : DRes Nat) = .ok n := h
      cases h
      obtain ⟨subs', L₁', hit', hlen', hbytes', hseq', herr'⟩ :=
        iterList_spec (bytes.length + 2) (Rlp.new bytes) 0
      rw [hit] at hit'
      cases hit'
      have hlt : items.length < bytes.length + 2 :=
        iterList_length_lt (Rlp.new bytes) 0 hit
      obtain ⟨e, he⟩ := herr' hlt
      refine ⟨items, self', rfl, rfl, hseq', e, ?_⟩
      simpa using he

/-- Witness for C3 at the two-element list `[0xc2, 0x01, 0x02]`. -/
theorem C3_iteration_matches_at_witness :
    ((Rlp.new [0xc2, 0x01, 0x02]).item_count).1 = .ok 2 ∧
    (∃ subs L₁,
      (Rlp.new [0xc2, 0x01, 0x02]).iterList 0 ([0xc2, 0x01, 0x02].length + 2)
        = .ok (subs, L₁) ∧
      subs.length = 2 ∧
      (Rlp.atSeq (Rlp.new [0xc2, 0x01, 0x02]) 0 2).1 = subs.map DRes.ok ∧
      ∃ e, (((Rlp.atSeq (Rlp.new [0xc2, 0x01, 0x02]) 0 2).2).at 2).1 = .err e) :=
  ⟨by decide, C3_iteration_matches_at [0xc2, 0x01, 0x02] 2 (by decide)⟩

theorem goodItem_elim {it : List Nat} (h : goodItem it = true) :
    ∃ pi, payload_info it = .ok pi ∧ pi.total = it.length := by
  unfold goodItem at h
  cases hpi : payload_info it with
  | ok pi =>
    rw [hpi] at h
    refine ⟨pi, rfl, ?_⟩
    exact eq_of_beq h
  | err e => rw [hpi] at h; cases h
  | panic => rw [hpi] at h; cases h

theorem goodItem_intro {it : List Nat} {pi : PayloadInfo}
    (hpi : payload_info it = .ok pi) (ht : pi.total = it.length) :
    goodItem it = true := by
  unfold goodItem
  rw [hpi]
  show (pi.total == it.length) = true
  exact beq_iff_eq.mpr ht

theorem goodItem_length_pos {it : List Nat} (h : goodItem it = true) :
    1 ≤ it.length := by
  obtain ⟨pi, hpi, ht⟩ := goodItem_elim h
  have := fromBytes_total_pos (payload_info_ok_elim hpi).1
  omega

theorem encode_value_length_ge (p : List Nat) :
    p.length ≤ (encode_value p).length := by
  unfold encode_value
  by_cases h1 : p.length = 1 ∧ p.headD 0 < 0x80
  · rw [if_pos h1]
  · rw [if_neg h1]
    by_cases h2 : p.length ≤ 55
    · rw [if_pos h2]; simp
    · rw [if_neg h2]; simp; omega

theorem goodItem_encode_value {p : List Nat} (h : p.length + 9 ≤ usizeMax) :
    goodItem (encode_value p) = true := by
  obtain ⟨hl, hpi, hbl⟩ := payload_info_encode_value p h
  exact goodItem_intro hpi (by simp [PayloadInfo.total]; omega)

theorem length_le_flatten_of_good (items : List (List Nat))
    (hg : ∀ it ∈ items, goodItem it = true) :
    items.length ≤ items.flatten.length := by
  induction items with
  | nil => simp
  | cons it t ih =>
    have h1 : 1 ≤ it.length := goodItem_length_pos (hg it (by simp))
    have h2 := ih (fun x hx => hg x (by simp [hx]))
    simp only [List.flatten_cons, List.length_append, List.length_cons]
    omega

theorem mem_flatten_length_le {l : List (List Nat)} {x : List Nat} (hx : x ∈ l) :
    x.length ≤ l.flatten.length := by
  induction l with
  | nil => cases hx
  | cons h t ih =>
    simp only [List.flatten_cons, List.length_append]
    rcases List.mem_cons.mp hx with rfl | hx'
    · omega
    · have := ih hx'
      omega

theorem itemOff_zero (items : List (List Nat)) : itemOff items 0 = 0 := rfl

theorem itemOff_le_flatten (items : List (List Nat)) (j : Nat) :
    itemOff items j ≤ items.flatten.length := by
  unfold itemOff
  conv_rhs => rw [← List.take_append_drop j items]
  rw [List.flatten_append, List.length_append]
  omega

theorem itemOff_length (items : List (List Nat)) :
    itemOff items items.length = items.flatten.length := by
  unfold itemOff
  rw [List.take_length]

theorem itemOff_add (items : List (List Nat)) {j i : Nat} (hj : j ≤ i) :
    itemOff items j + (((items.drop j).take (i - j)).flatten).length
      = itemOff items i := by
  unfold itemOff
  have h : items.take i = items.take j ++ (items.drop j).take (i - j) := by
    have := List.take_add items j (i - j)
    rw [Nat.add_sub_cancel' hj] at this
    exact this
  rw [h, List.flatten_append, List.length_append]

theorem drop_flatten_itemOff (items : List (List Nat)) (j : Nat) :
    items.flatten.drop (itemOff items j) = (items.drop j).flatten := by
  have h : items.flatten = (items.take j).flatten ++ (items.drop j).flatten := by
    rw [← List.flatten_append, List.take_append_drop]
  rw [h]
  unfold itemOff
  rw [List.drop_left]

theorem itemOff_lt_flatten (items : List (List Nat))
    (hg : ∀ it ∈ items, goodItem it = true) {i : Nat} (hi : i < items.length) :
    itemOff items i < items.flatten.length := by
  have hmem : items.get ⟨i, hi⟩ ∈ items := List.get_mem items i hi
  have hpos : 1 ≤ (items.get ⟨i, hi⟩).length := goodItem_length_pos (hg _ hmem)
  have hdrop : items.drop i = items.get ⟨i, hi⟩ :: items.drop (i + 1) := by
    rw [List.drop_eq_getElem_cons hi]
    rfl
  have h1 := itemOff_le_flatten items i
  have h2 := drop_flatten_itemOff items i
  have h3 : (items.flatten.drop (itemOff items i)).length
      = items.flatten.length - itemOff items i := by
    rw [List.length_drop]
  rw [h2, hdrop] at h3
  simp only [List.flatten_cons, List.length_append] at h3
  omega

theorem consume_items_flatten : ∀ (k : Nat) (items : List (List Nat))
    (rest : List Nat), (∀ it ∈ items, goodItem it = true) → k ≤ items.length →
    Rlp.consume_items (items.flatten ++ rest) k
      = .ok ((items.drop k).flatten ++ rest, itemOff items k) := by
  intro k
  induction k with
  | zero =>
    intro items rest hg hk
    rfl
  | succ n ih =>
    intro items rest hg hk
    cases items with
    | nil => simp at hk
    | cons it t =>
      obtain ⟨pi, hpi, ht⟩ := goodItem_elim (hg it (by simp))
      have hpi' : payload_info (it ++ (t.flatten ++ rest)) = .ok pi :=
        payload_info_prefix_stable hpi ht
      have harr : (it :: t).flatten ++ rest = it ++ (t.flatten ++ rest) := by
        simp
      rw [harr]
      show (payload_info (it ++ (t.flatten ++ rest))).bind _ = _
      rw [hpi', DRes.bind_ok]
      have htot : pi.header_len + pi.value_len = it.length := ht
      rw [htot]
      have hcons : Rlp.consume (it ++ (t.flatten ++ rest)) it.length
          = .ok (t.flatten ++ rest) := by
        unfold Rlp.consume
        rw [if_pos (by simp), List.drop_left]
      rw [hcons, DRes.bind_ok]
      rw [ih t rest (fun x hx => hg x (by simp [hx])) (by simp at hk; omega)]
      rw [DRes.bind_ok]
      show DRes.ok ((t.drop n).flatten ++ rest, it.length + itemOff t n) = _
      have hoff : itemOff (it :: t) (n + 1) = it.length + itemOff t n := by
        unfold itemOff
        simp
      rw [hoff]
      rfl

theorem atStep_ok_eq (L : Rlp) (i : Nat) (sb : List Nat) (sk bc : Nat) :
    Rlp.atStep L i (.ok (sb, sk, bc))
      = match Rlp.consume_items sb sk with
        | .err e => (.err e, L)
        | .panic => (.panic, L)
        | .ok (bytes2, consumed) =>
          match payload_info L.bytes with
          | .err e => (.err e, L)
          | .panic => (.panic, L)
          | .ok pinfo =>
            if bc + consumed > pinfo.header_len + pinfo.value_len - 1 then
              (.err (.RlpIsTooShort (bc + consumed)
                (pinfo.header_len + pinfo.value_len - 1)), L)
            else
              match payload_info bytes2 with
              | .err e => (.err e, { L with offset_cache := some ⟨i, bc + consumed⟩ })
              | .panic => (.panic, { L with offset_cache := some ⟨i, bc + consumed⟩ })
              | .ok found =>
                (.ok (Rlp.new (bytes2.take (found.header_len + found.value_len))),
                 { L with offset_cache := some ⟨i, bc + consumed⟩ }) := rfl

theorem at_wf {items : List (List Nat)} {hl : Nat} {cache : Option OffsetCache}
    (cc : Option Nat) (i : Nat)
    (hg : ∀ it ∈ items, goodItem it = true)
    (hpi : payload_info (encodeListPayload items.flatten)
      = .ok ⟨hl, items.flatten.length⟩)
    (hbl : (encodeListPayload items.flatten).length = hl + items.flatten.length)
    (hdr : (encodeListPayload items.flatten).drop hl = items.flatten)
    (hhd : 0xc0 ≤ (encodeListPayload items.flatten).headD 0)
    (hc : WfCache items hl cache) (hi : i ≤ items.length) :
    (∀ h : i < items.length,
      Rlp.at ⟨encodeListPayload items.flatten, cache, cc⟩ i
        = (.ok (Rlp.new (items.get ⟨i, h⟩)),
           ⟨encodeListPayload items.flatten, some ⟨i, hl + itemOff items i⟩, cc⟩)) ∧
    (i = items.length →
      Rlp.at ⟨encodeListPayload items.flatten, cache, cc⟩ i
        = (.err (.RlpIsTooShort (hl + items.flatten.length)
            (hl + items.flatten.length - 1)),
           ⟨encodeListPayload items.flatten, cache, cc⟩)) := by
  set buffer := encodeListPayload items.flatten with hbuf
  have htot1 : 1 ≤ hl + items.flatten.length :=
    fromBytes_total_pos (payload_info_ok_elim hpi).1
  have hbne : buffer ≠ [] := by
    intro h0
    rw [h0] at hbl
    simp only [List.length_nil] at hbl
    omega
  have hlist : Rlp.is_list ⟨buffer, cache, cc⟩ = true := by
    unfold Rlp.is_list Rlp.is_null
    show (!buffer.isEmpty && decide (0xc0 ≤ buffer.headD 0)) = true
    rw [Bool.and_eq_true, decide_eq_true_eq]
    refine ⟨?_, hhd⟩
    cases hb : buffer with
    | nil => exact absurd hb hbne
    | cons a t => rfl
  have hclp : Rlp.consume_list_payload ⟨buffer, cache, cc⟩
      = .ok (items.flatten, hl) := by
    unfold Rlp.consume_list_payload
    show (payload_info buffer).bind _ = _
    rw [hpi, DRes.bind_ok]
    show (if buffer.length < hl + items.flatten.length then _ else _) = _
    rw [if_neg (by omega)]
    show DRes.ok ((buffer.drop hl).take items.flatten.length, hl) = _
    rw [hdr, List.take_length]
  have main : ∀ j, j ≤ i → j ≤ items.length →
      ((∀ h : i < items.length,
        Rlp.atStep ⟨buffer, cache, cc⟩ i
          (.ok ((items.drop j).flatten, i - j, hl + itemOff items j))
          = (.ok (Rlp.new (items.get ⟨i, h⟩)),
             ⟨buffer, some ⟨i, hl + itemOff items i⟩, cc⟩)) ∧
       (i = items.length →
        Rlp.atStep ⟨buffer, cache, cc⟩ i
          (.ok ((items.drop j).flatten, i - j, hl + itemOff items j))
          = (.err (.RlpIsTooShort (hl + items.flatten.length)
              (hl + items.flatten.length - 1)), ⟨buffer, cache, cc⟩))) := by
    intro j hji hjl
    have hoffadd := itemOff_add items hji
    have hoffle := itemOff_le_flatten items i
    have hconsitems : Rlp.consume_items ((items.drop j).flatten) (i - j)
        = .ok ((items.drop i).flatten, itemOff items i - itemOff items j) := by
      have h1 := consume_items_flatten (i - j) (items.drop j) []
        (fun x hx => hg x (List.mem_of_mem_drop hx))
        (by rw [List.length_drop]; omega)
      rw [List.append_nil, List.append_nil] at h1
      have h2 : (items.drop j).drop (i - j) = items.drop i := by
        rw [List.drop_drop]
        have hj' : j + (i - j) = i := by omega
        rw [hj']
      rw [h2] at h1
      have hoff : itemOff (items.drop j) (i - j)
          = itemOff items i - itemOff items j := by
        have h3 : itemOff (items.drop j) (i - j)
            = (((items.drop j).take (i - j)).flatten).length := rfl
        omega
      rw [hoff] at h1
      exact h1
    have harith : hl + itemOff items j + (itemOff items i - itemOff items j)
        = hl + itemOff items i := by omega
    constructor
    · intro hilt
      have hoffi := itemOff_lt_flatten items hg hilt
      have hdropi : items.drop i = items.get ⟨i, hilt⟩ :: items.drop (i + 1) := by
        rw [List.drop_eq_getElem_cons hilt]
        rfl
      obtain ⟨pii, hpii, htii⟩ := goodItem_elim (hg _ (List.get_mem items i hilt))
      have hpif : payload_info ((items.drop i).flatten) = .ok pii := by
        rw [hdropi, List.flatten_cons]
        exact payload_info_prefix_stable hpii htii
      have htake : ((items.drop i).flatten).take (pii.header_len + pii.value_len)
          = items.get ⟨i, hilt⟩ := by
        rw [hdropi, List.flatten_cons]
        have ht' : pii.header_len + pii.value_len
            = (items.get ⟨i, hilt⟩).length := htii
        rw [ht', List.take_left]
      rw [atStep_ok_eq, hconsitems]
      show (match payload_info buffer with
        | .err e => ((.err e : DRes Rlp), (⟨buffer, cache, cc⟩ : Rlp))
        | .panic => (.panic, ⟨buffer, cache, cc⟩)
        | .ok pinfo =>
          if hl + itemOff items j + (itemOff items i - itemOff items j)
              > pinfo.header_len + pinfo.value_len - 1 then
            (.err (.RlpIsTooShort
              (hl + itemOff items j + (itemOff items i - itemOff items j))
              (pinfo.header_len + pinfo.value_len - 1)), ⟨buffer, cache, cc⟩)
          else
            match payload_info ((items.drop i).flatten) with
            | .err e => (.err e, ⟨buffer, some ⟨i, hl + itemOff items j
                + (itemOff items i - itemOff items j)⟩, cc⟩)
            | .panic => (.panic, ⟨buffer, some ⟨i, hl + itemOff items j
                + (itemOff items i - itemOff items j)⟩, cc⟩)
            | .ok found =>
              (.ok (Rlp.new (((items.drop i).flatten).take
                  (found.header_len + found.value_len))),
               ⟨buffer, some ⟨i, hl + itemOff items j
                + (itemOff items i - itemOff items j)⟩, cc⟩)) = _
      rw [hpi]
      show (if hl + itemOff items j + (itemOff items i - itemOff items j)
            > hl + items.flatten.length - 1 then _ else _) = _
      rw [if_neg (by omega)]
      show (match payload_info ((items.drop i).flatten) with
        | .err e => ((.err e : DRes Rlp), (⟨buffer, some ⟨i, hl + itemOff items j
            + (itemOff items i - itemOff items j)⟩, cc⟩ : Rlp))
        | .panic => (.panic, ⟨buffer, some ⟨i, hl + itemOff items j
            + (itemOff items i - itemOff items j)⟩, cc⟩)
        | .ok found =>
          (.ok (Rlp.new (((items.drop i).flatten).take
              (found.header_len + found.value_len))),
           ⟨buffer, some ⟨i, hl + itemOff items j
            + (itemOff items i - itemOff items j)⟩, cc⟩)) = _
      rw [hpif, harith]
      show (DRes.ok (Rlp.new (((items.drop i).flatten).take
          (pii.header_len + pii.value_len))),
         (⟨buffer, some ⟨i, hl + itemOff items i⟩, cc⟩ : Rlp)) = _
      rw [htake]
    · intro hieq
      have hoffeq : itemOff items i = items.flatten.length := by
        rw [hieq]
        exact itemOff_length items
      rw [atStep_ok_eq, hconsitems]
      show (match payload_info buffer with
        | .err e => ((.err e : DRes Rlp), (⟨buffer, cache, cc⟩ : Rlp))
        | .panic => (.panic, ⟨buffer, cache, cc⟩)
        | .ok pinfo =>
          if hl + itemOff items j + (itemOff items i - itemOff items j)
              > pinfo.header_len + pinfo.value_len - 1 then
            (.err (.RlpIsTooShort
              (hl + itemOff items j + (itemOff items i - itemOff items j))
              (pinfo.header_len + pinfo.value_len - 1)), ⟨buffer, cache, cc⟩)
          else
            match payload_info ((items.drop i).flatten) with
            | .err e => (.err e, ⟨buffer, some ⟨i, hl + itemOff items j
                + (itemOff items i - itemOff items j)⟩, cc⟩)
            | .panic => (.panic, ⟨buffer, some ⟨i, hl + itemOff items j
                + (itemOff items i - itemOff items j)⟩, cc⟩)
            | .ok found =>
              (.ok (Rlp.new (((items.drop i).flatten).take
                  (found.header_len + found.value_len))),
               ⟨buffer, some ⟨i, hl + itemOff items j
                + (itemOff items i - itemOff items j)⟩, cc⟩)) = _
      rw [hpi]
      show (if hl + itemOff items j + (itemOff items i - itemOff items j)
            > hl + items.flatten.length - 1 then
          ((.err (.RlpIsTooShort
            (hl + itemOff items j + (itemOff items i - itemOff items j))
            (hl + items.flatten.length - 1)) : DRes Rlp), (⟨buffer, cache, cc⟩ : Rlp))
        else _) = _
      rw [if_pos (by omega), harith, hoffeq]
  have hfreshstep : ∀ c : Option OffsetCache,
      ((Rlp.consume_list_payload ⟨buffer, cache, cc⟩).bind fun bc =>
        (.ok (bc.1, i, bc.2) : DRes (List Nat × Nat × Nat)))
      = .ok (items.flatten, i, hl) := by
    intro _
    rw [hclp, DRes.bind_ok]
  rcases hc with rfl | ⟨j, hjle, rfl⟩
  · have hat : Rlp.at ⟨buffer, none, cc⟩ i
        = Rlp.atStep ⟨buffer, none, cc⟩ i (.ok (items.flatten, i, hl)) := by
      unfold Rlp.at
      rw [if_neg (by rw [hlist]; simp)]
      congr 1
      show ((Rlp.consume_list_payload ⟨buffer, none, cc⟩).bind fun bc =>
        (.ok (bc.1, i, bc.2) : DRes (List Nat × Nat × Nat))) = _
      rw [hclp, DRes.bind_ok]
    have hm := main 0 (by omega) (by omega)
    constructor
    · intro hilt
      rw [hat]
      exact hm.1 hilt
    · intro hieq
      rw [hat]
      exact hm.2 hieq
  · by_cases hji : j ≤ i
    · have hcons : Rlp.consume buffer (hl + itemOff items j)
          = .ok ((items.drop j).flatten) := by
        have hoffle : itemOff items j ≤ items.flatten.length :=
          itemOff_le_flatten items j
        unfold Rlp.consume
        rw [if_pos (by omega)]
        have hdd : buffer.drop (hl + itemOff items j)
            = (buffer.drop hl).drop (itemOff items j) := by
          rw [List.drop_drop]
        rw [hdd, hdr, drop_flatten_itemOff]
      have hat : Rlp.at ⟨buffer, some ⟨j, hl + itemOff items j⟩, cc⟩ i
          = Rlp.atStep ⟨buffer, some ⟨j, hl + itemOff items j⟩, cc⟩ i
              (.ok ((items.drop j).flatten, i - j, hl + itemOff items j)) := by
        unfold Rlp.at
        rw [if_neg (by rw [hlist]; simp)]
        congr 1
        show (if j ≤ i then
            (Rlp.consume buffer (hl + itemOff items j)).bind fun b =>
              (.ok (b, i - j, hl + itemOff items j) : DRes (List Nat × Nat × Nat))
          else
            (Rlp.consume_list_payload ⟨buffer, some ⟨j, hl + itemOff items j⟩, cc⟩).bind
              fun bc => .ok (bc.1, i, bc.2)) = _
        rw [if_pos hji, hcons, DRes.bind_ok]
      have hm := main j hji hjle
      constructor
      · intro hilt
        rw [hat]
        exact hm.1 hilt
      · intro hieq
        rw [hat]
        exact hm.2 hieq
    · have hat : Rlp.at ⟨buffer, some ⟨j, hl + itemOff items j⟩, cc⟩ i
          = Rlp.atStep ⟨buffer, some ⟨j, hl + itemOff items j⟩, cc⟩ i
              (.ok (items.flatten, i, hl)) := by
        unfold Rlp.at
        rw [if_neg (by rw [hlist]; simp)]
        congr 1
        show (if j ≤ i then
            (Rlp.consume buffer (hl + itemOff items j)).bind fun b =>
              (.ok (b, i - j, hl + itemOff items j) : DRes (List Nat × Nat × Nat))
          else
            (Rlp.consume_list_payload ⟨buffer, some ⟨j, hl + itemOff items j⟩, cc⟩).bind
              fun bc => .ok (bc.1, i, bc.2)) = _
        rw [if_neg hji, hclp, DRes.bind_ok]
      have hm := main 0 (by omega) (by omega)
      constructor
      · intro hilt
        rw [hat]
        exact hm.1 hilt
      · intro hieq
        rw [hat]
        exact hm.2 hieq

theorem is_list_of_head {b : List Nat} (hne : b ≠ []) (hhd : 0xc0 ≤ b.headD 0)
    (cache : Option OffsetCache) (cc : Option Nat) :
    Rlp.is_list ⟨b, cache, cc⟩ = true := by
  unfold Rlp.is_list Rlp.is_null
  show (!b.isEmpty && decide (0xc0 ≤ b.headD 0)) = true
  rw [Bool.and_eq_true, decide_eq_true_eq]
  refine ⟨?_, hhd⟩
  cases b with
  | nil => exact absurd rfl hne
  | cons a t => rfl

theorem iterList_ok_step (L : Rlp) (idx fuel : Nat) {sub : Rlp} {L' : Rlp}
    (hat : L.at idx = (.ok sub, L')) :
    L.iterList idx (fuel + 1)
      = (L'.iterList (idx + 1) fuel).bind fun r => .ok (sub :: r.1, r.2) := by
  rw [iterList_succ, hat]

theorem iterList_err_step (L : Rlp) (idx fuel : Nat) {e : DecoderError} {L' : Rlp}
    (hat : L.at idx = (.err e, L')) :
    L.iterList idx (fuel + 1) = .ok ([], L') := by
  rw [iterList_succ, hat]

theorem asListAux_succ {α : Type} (dec : List Nat → DRes α) (L : Rlp)
    (idx fuel : Nat) :
    asListAux dec L idx (fuel + 1)
      = match L.at idx with
        | (.ok sub, self') =>
          match dec sub.bytes with
          | .ok v =>
            ((asListAux dec self' (idx + 1) fuel).1.bind fun vs => .ok (v :: vs),
             (asListAux dec self' (idx + 1) fuel).2)
          | .err e => (.err e, self')
          | .panic => (.panic, self')
        | (.err _, self') => (.ok [], self')
        | (.panic, self') => (.panic, self') := rfl

theorem asListAux_ok_step {α : Type} (dec : List Nat → DRes α) (L : Rlp)
    (idx fuel : Nat) {sub : Rlp} {L' : Rlp} (hat : L.at idx = (.ok sub, L')) :
    asListAux dec L idx (fuel + 1)
      = match dec sub.bytes with
        | .ok v =>
          ((asListAux dec L' (idx + 1) fuel).1.bind fun vs => .ok (v :: vs),
           (asListAux dec L' (idx + 1) fuel).2)
        | .err e => (.err e, L')
        | .panic => (.panic, L') := by
  rw [asListAux_succ, hat]

theorem asListAux_err_step {α : Type} (dec : List Nat → DRes α) (L : Rlp)
    (idx fuel : Nat) {e : DecoderError} {L' : Rlp} (hat : L.at idx = (.err e, L')) :
    asListAux dec L idx (fuel + 1) = (.ok [], L') := by
  rw [asListAux_succ, hat]

theorem iterList_wf : ∀ (fuel : Nat) (items : List (List Nat)) (hl : Nat)
    (cache : Option OffsetCache) (cc : Option Nat) (idx : Nat),
    (∀ it ∈ items, goodItem it = true) →
    payload_info (encodeListPayload items.flatten)
      = .ok ⟨hl, items.flatten.length⟩ →
    (encodeListPayload items.flatten).length = hl + items.flatten.length →
    (encodeListPayload items.flatten).drop hl = items.flatten →
    0xc0 ≤ (encodeListPayload items.flatten).headD 0 →
    WfCache items hl cache → idx ≤ items.length → items.length - idx < fuel →
    ∃ cache', WfCache items hl cache' ∧
      Rlp.iterList ⟨encodeListPayload items.flatten, cache, cc⟩ idx fuel
        = .ok ((items.drop idx).map (fun it => Rlp.new it),
               ⟨encodeListPayload items.flatten, cache', cc⟩) := by
  intro fuel
  induction fuel with
  | zero =>
    intro items hl cache cc idx hg hpi hbl hdr hhd hc hidx hfuel
    omega
  | succ fuel ih =>
    intro items hl cache cc idx hg hpi hbl hdr hhd hc hidx hfuel
    by_cases hlt : idx < items.length
    · have hat := (at_wf cc idx hg hpi hbl hdr hhd hc hidx).1 hlt
      obtain ⟨cache', hc', hrec⟩ := ih items hl
        (some ⟨idx, hl + itemOff items idx⟩) cc (idx + 1) hg hpi hbl hdr hhd
        (Or.inr ⟨idx, by omega, rfl⟩) (by omega) (by omega)
      refine ⟨cache', hc', ?_⟩
      rw [iterList_ok_step _ idx fuel hat, hrec, DRes.bind_ok]
      have hdropmap : (items.drop idx).map (fun it => Rlp.new it)
          = Rlp.new (items.get ⟨idx, hlt⟩)
            :: (items.drop (idx + 1)).map (fun it => Rlp.new it) := by
        rw [List.drop_eq_getElem_cons hlt]
        rfl
      rw [hdropmap]
    · have hieq : idx = items.length := by omega
      have hat := (at_wf cc idx hg hpi hbl hdr hhd hc hidx).2 hieq
      refine ⟨cache, hc, ?_⟩
      rw [iterList_err_step _ idx fuel hat, hieq, List.drop_length]
      rfl

theorem asListAux_wf : ∀ (fuel : Nat) {α : Type} (dec : List Nat → DRes α)
    (enc : α → List Nat) (vals : List α) (hl : Nat) (cache : Option OffsetCache)
    (cc : Option Nat) (idx : Nat),
    (∀ it ∈ vals.map enc, goodItem it = true) →
    payload_info (encodeListPayload (vals.map enc).flatten)
      = .ok ⟨hl, (vals.map enc).flatten.length⟩ →
    (encodeListPayload (vals.map enc).flatten).length
      = hl + (vals.map enc).flatten.length →
    (encodeListPayload (vals.map enc).flatten).drop hl = (vals.map enc).flatten →
    0xc0 ≤ (encodeListPayload (vals.map enc).flatten).headD 0 →
    (∀ v ∈ vals, dec (enc v) = .ok v) →
    WfCache (vals.map enc) hl cache → idx ≤ vals.length →
    vals.length - idx < fuel →
    (asListAux dec ⟨encodeListPayload (vals.map enc).flatten, cache, cc⟩
      idx fuel).1 = .ok (vals.drop idx) := by
  intro fuel
  induction fuel with
  | zero =>
    intro α dec enc vals hl cache cc idx hg hpi hbl hdr hhd hdec hc hidx hfuel
    omega
  | succ fuel ih =>
    intro α dec enc vals hl cache cc idx hg hpi hbl hdr hhd hdec hc hidx hfuel
    have hlenm : (vals.map enc).length = vals.length := List.length_map _ _
    by_cases hlt : idx < vals.length
    · have hlt' : idx < (vals.map enc).length := by omega
      have hat := (at_wf cc idx hg hpi hbl hdr hhd hc (by omega)).1 hlt'
      have hget : (vals.map enc).get ⟨idx, hlt'⟩ = enc (vals.get ⟨idx, hlt⟩) := by
        simp [List.get_map]
      have hdecv : dec ((Rlp.new ((vals.map enc).get ⟨idx, hlt'⟩)).bytes)
          = .ok (vals.get ⟨idx, hlt⟩) := by
        show dec ((vals.map enc).get ⟨idx, hlt'⟩) = _
        rw [hget]
        exact hdec _ (List.get_mem vals idx hlt)
      have hrec := ih dec enc vals hl
        (some ⟨idx, hl + itemOff (vals.map enc) idx⟩) cc (idx + 1)
        hg hpi hbl hdr hhd hdec (Or.inr ⟨idx, by omega, rfl⟩) (by omega) (by omega)
      rw [asListAux_ok_step dec _ idx fuel hat, hdecv]
      show ((asListAux dec ⟨encodeListPayload (vals.map enc).flatten,
          some ⟨idx, hl + itemOff (vals.map enc) idx⟩, cc⟩ (idx + 1) fuel).1.bind
          fun vs => (.ok (vals.get ⟨idx, hlt⟩ :: vs) : DRes (List α))) = _
      rw [hrec, DRes.bind_ok]
      rw [List.drop_eq_getElem_cons hlt]
      rfl
    · have hieq : idx = (vals.map enc).length := by omega
      have hat := (at_wf cc idx hg hpi hbl hdr hhd hc (by omega)).2 hieq
      rw [asListAux_err_step dec _ idx fuel hat]
      show DRes.ok ([] : List α) = .ok (vals.drop idx)
      have hieq2 : idx = vals.length := by omega
      rw [hieq2, List.drop_length]

theorem item_count_wf {items : List (List Nat)} {hl : Nat}
    (hg : ∀ it ∈ items, goodItem it = true)
    (hpi : payload_info (encodeListPayload items.flatten)
      = .ok ⟨hl, items.flatten.length⟩)
    (hbl : (encodeListPayload items.flatten).length = hl + items.flatten.length)
    (hdr : (encodeListPayload items.flatten).drop hl = items.flatten)
    (hhd : 0xc0 ≤ (encodeListPayload items.flatten).headD 0) :
    ∃ cache', WfCache items hl cache' ∧
      Rlp.item_count (Rlp.new (encodeListPayload items.flatten))
        = (.ok items.length,
           ⟨encodeListPayload items.flatten, cache', some items.length⟩) := by
  have htot1 : 1 ≤ hl + items.flatten.length :=
    fromBytes_total_pos (payload_info_ok_elim hpi).1
  have hbne : encodeListPayload items.flatten ≠ [] := by
    intro h0
    rw [h0] at hbl
    simp only [List.length_nil] at hbl
    omega
  have hfuel : items.length < (encodeListPayload items.flatten).length + 2 := by
    have h1 := length_le_flatten_of_good items hg
    omega
  obtain ⟨cache', hc', hiter⟩ := iterList_wf
    ((encodeListPayload items.flatten).length + 2) items hl none none 0
    hg hpi hbl hdr hhd (Or.inl rfl) (by omega) (by omega)
  refine ⟨cache', hc', ?_⟩
  unfold Rlp.item_count
  rw [if_neg (by
    show ¬(!Rlp.is_list ⟨encodeListPayload items.flatten, none, none⟩) = true
    rw [is_list_of_head hbne hhd none none]
    simp)]
  show (match Rlp.iterList ⟨encodeListPayload items.flatten, none, none⟩ 0
      ((encodeListPayload items.flatten).length + 2) with
    | .ok (its, self') => ((.ok its.length : DRes Nat),
        { self' with count_cache := some its.length })
    | .err e => (.err e, Rlp.new (encodeListPayload items.flatten))
    | .panic => (.panic, Rlp.new (encodeListPayload items.flatten))) = _
  rw [hiter]
  show ((.ok ((items.drop 0).map (fun it => Rlp.new it)).length : DRes Nat),
      (⟨encodeListPayload items.flatten, cache',
        some ((items.drop 0).map (fun it => Rlp.new it)).length⟩ : Rlp)) = _
  rw [List.length_map, List.drop_zero]

theorem vecVecU8RoundTrip (vss : List (List Nat))
    (hlen : (vss.map encode_value).flatten.length + 9 ≤ usizeMax) :
    vecVecU8Decode (vecVecU8Encode vss) = .ok vss := by
  obtain ⟨hl, hpi, hbl, hhl, hdrop, hhd⟩ :=
    payload_info_encodeListPayload (vss.map encode_value).flatten hlen
  have hg : ∀ it ∈ vss.map encode_value, goodItem it = true := by
    intro it hit
    obtain ⟨vs, hvs, rfl⟩ := List.mem_map.mp hit
    apply goodItem_encode_value
    have h1 : vs.length ≤ (encode_value vs).length := encode_value_length_ge vs
    have h2 : (encode_value vs).length ≤ (vss.map encode_value).flatten.length :=
      mem_flatten_length_le hit
    omega
  have hdec : ∀ vs ∈ vss, vecU8Decode (encode_value vs) = .ok vs := by
    intro vs hvs
    have hmem : encode_value vs ∈ vss.map encode_value :=
      List.mem_map_of_mem _ hvs
    have h1 := encode_value_length_ge vs
    have h2 := mem_flatten_length_le hmem
    exact vecU8RoundTrip vs (by omega)
  have hfuel : vss.length
      < (encodeListPayload (vss.map encode_value).flatten).length + 2 := by
    have h1 := length_le_flatten_of_good (vss.map encode_value) hg
    have h2 : (vss.map encode_value).length = vss.length := List.length_map _ _
    omega
  have hres := asListAux_wf
    ((encodeListPayload (vss.map encode_value).flatten).length + 2)
    vecU8Decode encode_value vss hl none none 0
    hg hpi hbl hdrop hhd hdec (Or.inl rfl) (by omega) (by omega)
  rw [List.drop_zero] at hres
  exact hres

theorem optionRoundTrip {α : Type} (enc : α → List Nat) (dec : List Nat → DRes α)
    (ov : Option α)
    (h : ∀ v, ov = some v → dec (enc v) = .ok v ∧ goodItem (enc v) = true ∧
      (enc v).length + 9 ≤ usizeMax) :
    optionDecode dec (optionEncode enc ov) = .ok ov := by
  cases ov with
  | none => rfl
  | some v =>
    obtain ⟨hdec, hgood, hlen9⟩ := h v rfl
    have hfl : ([enc v] : List (List Nat)).flatten = enc v := by simp
    obtain ⟨hl, hpi, hbl, hhl, hdrop, hhd⟩ :=
      payload_info_encodeListPayload (enc v) (by omega)
    rw [← hfl] at hpi hbl hdrop hhd
    have hg : ∀ it ∈ ([enc v] : List (List Nat)), goodItem it = true := by
      intro it hit
      rw [List.mem_singleton.mp hit]
      exact hgood
    obtain ⟨cache', hc', hicount⟩ := item_count_wf hg hpi hbl hdrop hhd
    have hat := (at_wf (some ([enc v] : List (List Nat)).length) 0
      hg hpi hbl hdrop hhd hc' (by simp)).1 (by simp)
    simp only [hfl, List.length_singleton] at hicount hat
    show (match Rlp.item_count (Rlp.new (encodeListPayload (enc v))) with
      | (.ok 1, self') =>
        (match self'.at 0 with
          | (.ok sub, _) => (dec sub.bytes).bind fun x =>
              (.ok (some x) : DRes (Option α))
          | (.err e, _) => .err e
          | (.panic, _) => .panic)
      | (.ok 0, _) => .ok none
      | (.ok _, _) => .err .RlpIncorrectListLen
      | (.err e, _) => .err e
      | (.panic, _) => .panic) = .ok (some v)
    rw [hicount]
    show (match Rlp.at ⟨encodeListPayload (enc v), cache', some 1⟩ 0 with
      | (.ok sub, _) => (dec sub.bytes).bind fun x =>
          (.ok (some x) : DRes (Option α))
      | (.err e, _) => .err e
      | (.panic, _) => .panic) = .ok (some v)
    rw [hat]
    show (dec (enc v)).bind (fun x => (.ok (some x) : DRes (Option α)))
      = .ok (some v)
    rw [hdec, DRes.bind_ok]
/-- C1 (corrected): the encode/decode round-trip `decode(encode(v)) = Ok(v)`
holds for every value of `bool`, `u8`, `u16`, `u32`, `u64`, `usize`, `U256`,
the fixed hashes of 16/20/32/64/65 bytes, `Vec<u8>`, `Option<T>` (for any
element codec whose encodings are self-delimiting items that round-trip),
and `Vec<Vec<u8>>` (the homogeneous-list instance), with payload lengths in
`usize` range; for `String` it holds only with no NUL byte in the text (the
unrestricted claim fails, see the `String` counterexample). -/
theorem C1_roundtrip :
    (∀ b : Bool, boolDecode (boolEncode b) = .ok b) ∧
    (∀ v : Nat, v < 256 → u8Decode (u8Encode v) = .ok v) ∧
    (∀ v : Nat, v < 2 ^ 16 → u16Decode (u16Encode v) = .ok v) ∧
    (∀ v : Nat, v < 2 ^ 32 → u32Decode (u32Encode v) = .ok v) ∧
    (∀ v : Nat, v < 2 ^ 64 → u64Decode (u64Encode v) = .ok v) ∧
    (∀ v : Nat, v < 2 ^ 64 → usizeDecode (usizeEncode v) = .ok v) ∧
    (∀ v : Nat, v < 2 ^ 256 → u256Decode (u256Encode v) = .ok v) ∧
    (∀ size ∈ [16, 20, 32, 64, 65], ∀ bs : List Nat, bs.length = size →
      hashDecode size (hashEncode bs) = .ok bs) ∧
    (∀ bs : List Nat, bs.length + 9 ≤ usizeMax →
      vecU8Decode (vecU8Encode bs) = .ok bs) ∧
    (∀ bs : List Nat, bs.length + 9 ≤ usizeMax → validUtf8 bs = true →
      bs.contains 0 = false → stringDecode (stringEncode bs) = .ok bs) ∧
    (∀ (α : Type) (enc : α → List Nat) (dec : List Nat → DRes α)
      (ov : Option α),
      (∀ v, ov = some v → dec (enc v) = .ok v ∧ goodItem (enc v) = true ∧
        (enc v).length + 9 ≤ usizeMax) →
      optionDecode dec (optionEncode enc ov) = .ok ov) ∧
    (∀ vss : List (List Nat),
      (vss.map encode_value).flatten.length + 9 ≤ usizeMax →
      vecVecU8Decode (vecVecU8Encode vss) = .ok vss) := by
  refine ⟨boolRoundTrip, u8RoundTrip, u16RoundTrip, u32RoundTrip,
    u64RoundTrip, usizeRoundTrip, u256RoundTrip, ?_, vecU8RoundTrip, ?_,
    fun α enc dec ov hh => optionRoundTrip enc dec ov hh, vecVecU8RoundTrip⟩
  · intro size hsize bs hbs
    apply hashRoundTrip size ?_ bs hbs
    simp only [List.mem_cons, List.mem_singleton] at hsize
    rcases hsize with rfl | rfl | rfl | rfl | rfl | h
    · norm_num
    · norm_num
    · norm_num
    · norm_num
    · norm_num
    · simp at h
  · intro bs h1 h2 h3
    exact stringRoundTrip bs h1 h2 h3

/-- Witness for C1: the round-trip conjunction applied at one concrete
value per type. -/
theorem C1_roundtrip_witness :
    boolDecode (boolEncode true) = .ok true ∧
    u8Decode (u8Encode 7) = .ok 7 ∧
    u16Decode (u16Encode 300) = .ok 300 ∧
    u32Decode (u32Encode 70000) = .ok 70000 ∧
    u64Decode (u64Encode 5000000000) = .ok 5000000000 ∧
    usizeDecode (usizeEncode 42) = .ok 42 ∧
    u256Decode (u256Encode 123456789) = .ok 123456789 ∧
    hashDecode 16 (hashEncode (List.replicate 16 0xab))
      = .ok (List.replicate 16 0xab) ∧
    vecU8Decode (vecU8Encode [1, 2, 3]) = .ok [1, 2, 3] ∧
    stringDecode (stringEncode [0x68, 0x69]) = .ok [0x68, 0x69] ∧
    optionDecode u8Decode (optionEncode u8Encode (some 5)) = .ok (some 5) ∧
    vecVecU8Decode (vecVecU8Encode [[1, 2], [], [3]])
      = .ok [[1, 2], [], [3]] :=
  ⟨C1_roundtrip.1 true,
   C1_roundtrip.2.1 7 (by decide),
   C1_roundtrip.2.2.1 300 (by decide),
   C1_roundtrip.2.2.2.1 70000 (by norm_num),
   C1_roundtrip.2.2.2.2.1 5000000000 (by norm_num),
   C1_roundtrip.2.2.2.2.2.1 42 (by norm_num),
   C1_roundtrip.2.2.2.2.2.2.1 123456789 (by norm_num),
   C1_roundtrip.2.2.2.2.2.2.2.1 16 (by decide) (List.replicate 16 0xab)
     (by simp),
   C1_roundtrip.2.2.2.2.2.2.2.2.1 [1, 2, 3] (by decide),
   C1_roundtrip.2.2.2.2.2.2.2.2.2.1 [0x68, 0x69] (by decide) (by decide)
     (by decide),
   C1_roundtrip.2.2.2.2.2.2.2.2.2.2.1 Nat u8Encode u8Decode (some 5)
     (fun v hv => by
       cases hv
       exact ⟨by decide, by decide, by decide⟩),
   C1_roundtrip.2.2.2.2.2.2.2.2.2.2.2 [[1, 2], [], [3]] (by decide)⟩

end RlpProof
